import Mathlib

/-!
Verification of the Caption Acquisition Resilience Pipeline
(src/api/captions.py, backoff.py, cache.py, limiter.py).

The Python source is shallowly embedded: pure helpers become Lean
functions on lists of characters, the filesystem cache becomes an explicit
association store threaded through the calls, the network behaviour of the
upstream captions API is a parameter describing what each attempt would
return, and the bounded semaphore of the limiter becomes a labelled
transition system.  Timestamps and retry delays are modelled as rational
numbers standing in for Python floats (only ordering, subtraction and the
exact dyadic backoff arithmetic matter to the properties considered).
-/

namespace VidCap

/-! ## Python string primitives

Models of the pieces of urllib.parse and of the str methods that
captions.py relies on.  All of them are restricted to ASCII text, which is
the domain the pipeline feeds them (URLs and caption identifiers).
-/

/-- Characters that urllib.parse removes from a URL at any position
(tab, carriage return, line feed). -/
def unsafeUrlChar (c : Char) : Bool := c == '\t' || c == '\r' || c == '\n'

/-- WHATWG C0-control-or-space predicate; urlsplit strips such characters
from the left end of the URL. -/
def c0OrSpace (c : Char) : Bool := c.val ≤ 32

/-- Characters allowed in a URL scheme after the leading letter
(letters, digits, plus, minus, dot). -/
def schemeChar (c : Char) : Bool :=
  c.isAlpha || c.isDigit || c == '+' || c == '-' || c == '.'

/-- Split a character list at the first character belonging to the stop
set: returns the segment before the first stop and the rest, which still
begins with the stop character when one was found. -/
def breakAt (stops : List Char) : List Char → List Char × List Char
  | [] => ([], [])
  | c :: cs =>
    if c ∈ stops then ([], c :: cs)
    else
      let p := breakAt stops cs
      (c :: p.1, p.2)

/-- Result of urlsplit: scheme, netloc, path, query, fragment. -/
structure UrlParts where
  scheme : List Char
  netloc : List Char
  path : List Char
  query : List Char
  fragment : List Char
deriving Repr, DecidableEq

/-- Drop everything from the first occurrence of the separator on; the
second component is what followed the separator (empty when absent). -/
def splitOff (sep : Char) (l : List Char) : List Char × List Char :=
  match (breakAt [sep] l).2 with
  | _ :: rest => ((breakAt [sep] l).1, rest)
  | [] => ((breakAt [sep] l).1, [])

/-- Sanitisation urlsplit performs before parsing: strip leading
C0-control/space characters, remove tab/CR/LF everywhere. -/
def sanitizeUrl (l : List Char) : List Char :=
  (l.dropWhile c0OrSpace).filter (fun c => !unsafeUrlChar c)

/-- Scheme recognition of urlsplit: a colon preceded by a non-empty run
of scheme characters starting with a letter splits the URL; otherwise no
scheme is recognised and the whole URL remains. -/
def splitScheme (u0 : List Char) : List Char × List Char :=
  match (breakAt [':'] u0).2 with
  | _ :: after =>
    if (breakAt [':'] u0).1 ≠ [] ∧ ((breakAt [':'] u0).1.headD ' ').isAlpha ∧
        (breakAt [':'] u0).1.all schemeChar then
      ((breakAt [':'] u0).1.map Char.toLower, after)
    else ([], u0)
  | [] => ([], u0)

/-- Authority recognition of urlsplit: after a leading double slash, the
netloc reaches to the next slash, question mark or hash. -/
def splitNetloc : List Char → List Char × List Char
  | '/' :: '/' :: r2 => breakAt ['/', '?', '#'] r2
  | r => ([], r)

/-- Model of urllib.parse.urlsplit (modern CPython): sanitise, split off
a valid scheme, read the authority, then split off the fragment and
finally the query.  The value none models the ValueError raised on a
netloc with unbalanced square brackets; extract_video_id catches it. -/
def pyUrlsplit (url : List Char) : Option UrlParts :=
  if ('[' ∈ (splitNetloc (splitScheme (sanitizeUrl url)).2).1 ∧
      ']' ∉ (splitNetloc (splitScheme (sanitizeUrl url)).2).1) ∨
     (']' ∈ (splitNetloc (splitScheme (sanitizeUrl url)).2).1 ∧
      '[' ∉ (splitNetloc (splitScheme (sanitizeUrl url)).2).1) then none
  else
    some ⟨(splitScheme (sanitizeUrl url)).1,
          (splitNetloc (splitScheme (sanitizeUrl url)).2).1,
          (splitOff '?' (splitOff '#' (splitNetloc (splitScheme (sanitizeUrl url)).2).2).1).1,
          (splitOff '?' (splitOff '#' (splitNetloc (splitScheme (sanitizeUrl url)).2).2).1).2,
          (splitOff '#' (splitNetloc (splitScheme (sanitizeUrl url)).2).2).2⟩

/-- Translation of the plus sign to a space, the first stage of
urllib.parse.unquote_plus. -/
def plusToSpace (c : Char) : Char := if c == '+' then ' ' else c

/-- Numeric value of a hexadecimal digit. -/
def hexDigitVal (c : Char) : Option Nat :=
  if '0' ≤ c ∧ c ≤ '9' then some (c.toNat - 48)
  else if 'a' ≤ c ∧ c ≤ 'f' then some (c.toNat - 87)
  else if 'A' ≤ c ∧ c ≤ 'F' then some (c.toNat - 55)
  else none

/-- Bytewise model of urllib.parse.unquote: a percent sign followed by two
hexadecimal digits decodes to the corresponding character, any other
percent sign is kept verbatim.  Multi-byte UTF-8 escapes are out of scope;
every input the pipeline handles is ASCII. -/
def pyUnquote : List Char → List Char
  | [] => []
  | '%' :: a :: b :: rest2 =>
    match hexDigitVal a, hexDigitVal b with
    | some x, some y => Char.ofNat (16 * x + y) :: pyUnquote rest2
    | _, _ => '%' :: pyUnquote (a :: b :: rest2)
  | c :: rest => c :: pyUnquote rest

/-- Model of urllib.parse.unquote_plus. -/
def pyUnquotePlus (l : List Char) : List Char := pyUnquote (l.map plusToSpace)

/-- Model of str.split with a one-character separator: the empty string
yields one empty chunk, and every separator occurrence starts a new
chunk. -/
def pySplitOn (sep : Char) : List Char → List (List Char)
  | [] => [[]]
  | c :: cs =>
    if c == sep then [] :: pySplitOn sep cs
    else
      match pySplitOn sep cs with
      | [] => [[c]]
      | h :: t => (c :: h) :: t

/-- Model of urllib.parse.parse_qsl with default arguments: chunks are
separated by ampersands, a chunk without an equals sign or with an empty
value is dropped, and names and values go through unquote_plus. -/
def parse_qsl (query : List Char) : List (List Char × List Char) :=
  (pySplitOn '&' query).filterMap fun nv =>
    if nv = [] then none
    else
      match (breakAt ['='] nv).2 with
      | [] => none
      | _ :: value =>
        if value = [] then none
        else some (pyUnquotePlus (breakAt ['='] nv).1, pyUnquotePlus value)

/-- First value parse_qs stores under a key (the head of the value list),
or none when the key is absent. -/
def qsFirst (key : List Char) (pairs : List (List Char × List Char)) :
    Option (List Char) :=
  (pairs.find? (fun p => p.1 == key)).map (·.2)

/-- Model of str.strip applied with the slash character. -/
def stripSlashes (l : List Char) : List Char :=
  ((l.dropWhile (· == '/')).reverse.dropWhile (· == '/')).reverse

/-- Characters of the YouTube identifier class of the regular expression
in extract_video_id: digits, ASCII letters, underscore, hyphen. -/
def tokenChar (c : Char) : Bool := c.isDigit || c.isAlpha || c == '_' || c == '-'

/-- Boolean list-prefix test. -/
def startsWithL : List Char → List Char → Bool
  | [], _ => true
  | _ :: _, [] => false
  | p :: ps, c :: cs => p == c && startsWithL ps cs

/-- Boolean contiguous-substring test. -/
def containsSub (pat : List Char) : List Char → Bool
  | [] => startsWithL pat []
  | c :: cs => startsWithL pat (c :: cs) || containsSub pat cs

/-- Attempt to match one alternative of the identifier regular expression
at the head of the list: the literal pattern followed by exactly eleven
identifier characters. -/
def tryShape (pat l : List Char) : Option (List Char) :=
  if startsWithL pat l then
    let tok := (l.drop pat.length).take 11
    if tok.length == 11 && tok.all tokenChar then some tok else none
  else none

/-- Leftmost search of the regular expression
/(embed|v|shorts)/([0-9A-Za-z_-]{11}) over the path, with the
alternatives tried in the written order at each position. -/
def scanShapes : List Char → Option (List Char)
  | [] => none
  | c :: cs =>
    match tryShape "/embed/".toList (c :: cs) with
    | some t => some t
    | none =>
      match tryShape "/v/".toList (c :: cs) with
      | some t => some t
      | none =>
        match tryShape "/shorts/".toList (c :: cs) with
        | some t => some t
        | none => scanShapes cs

/-- Model of captions.extract_video_id: parse the URL, take the first
value of the v query parameter truncated to eleven characters if present,
otherwise the first path segment for a youtu.be host truncated likewise,
otherwise the regular-expression search over the path; any parse error
yields none. -/
def extract_video_id (url : String) : Option String :=
  match pyUrlsplit url.toList with
  | none => none
  | some u =>
    let host := u.netloc.map Char.toLower
    let qs := parse_qsl u.query
    match qsFirst ['v'] qs with
    | some v0 => some ⟨v0.take 11⟩
    | none =>
      if containsSub "youtu.be".toList host then
        some ⟨((pySplitOn '/' (stripSlashes u.path)).headD []).take 11⟩
      else (scanShapes u.path).map (⟨·⟩)

/-- Contiguous-segment relation: the first list occurs inside the second
as one block. -/
def SubSeg (m l : List Char) : Prop := ∃ a b, l = a ++ m ++ b

/-- Occurrence check for one URL-shape pattern: some position of the
list starts the pattern followed by exactly eleven identifier
characters.  This is an executable rendering of the phrase a URL shape
containing an 11-character token. -/
def containsShapeToken (pat : List Char) (s : List Char) : Bool :=
  (List.range (s.length + 1)).any fun i =>
    startsWithL pat (s.drop i) &&
      ((((s.drop i).drop pat.length).take 11).length == 11) &&
      (((s.drop i).drop pat.length).take 11).all tokenChar

/-- Occurrence of any of the three path patterns of the regular
expression, followed by an eleven-character token. -/
def hasShapeOcc (l : List Char) : Bool :=
  ["/embed/".toList, "/v/".toList, "/shorts/".toList].any fun pat => containsShapeToken pat l

/-- Formalisation of the five URL shapes exactly as the claim names
them: the string contains ?v=, youtu.be/, /embed/, /v/ or /shorts/
immediately followed by an 11-character token. -/
def containsAnyClaimShape (s : String) : Bool :=
  ["?v=".toList, "youtu.be/".toList, "/embed/".toList, "/v/".toList, "/shorts/".toList].any
    fun pat => containsShapeToken pat s.toList

/-! ## Transcript entries and the join helper -/

/-- ASCII whitespace stripped by str.strip with no argument. -/
def pySpace (c : Char) : Bool :=
  c == ' ' || c == '\t' || c == '\n' || c == '\r' || c == '\x0b' || c == '\x0c'

/-- Model of str.strip with no argument. -/
def pyStrip (l : List Char) : List Char :=
  ((l.dropWhile pySpace).reverse.dropWhile pySpace).reverse

/-- String-level wrapper of pyStrip. -/
def pyStripS (s : String) : String := ⟨pyStrip s.toList⟩

/-- Transcript entry as consumed by captions.py; only the text field is
read (start and duration are ignored by the pipeline). -/
structure EntryM where
  text : String
deriving DecidableEq, Repr

/-- Model of captions._join: join the non-empty entry texts with
newlines, strip the result, and turn an empty outcome into absence. -/
def joinEntries (entries : List EntryM) : Option String :=
  if pyStrip (String.intercalate "\n" ((entries.map (·.text)).filter (· ≠ ""))).toList = []
  then none
  else some ⟨pyStrip (String.intercalate "\n" ((entries.map (·.text)).filter (· ≠ ""))).toList⟩

/-! ## Cache (cache.py)

The filesystem store keyed by the SHA-1 of the video id is modelled as an
association list keyed by the id itself (the key derivation is a fixed
injective function of the id, so nothing is lost).  A record holds the
stored timestamp and text; timestamps are rationals standing in for the
float seconds of time.time().  Reads never mutate the store in the
source (there is no deletion anywhere in cache.py), so cache_get returns
the store unchanged as its second component, representing the state of
the store after the call.  cache_set models the successful write; the
silent except branch for filesystem errors is outside the model. -/

/-- One cached record: fetch timestamp and stored text. -/
structure CacheRecord where
  ts : ℚ
  text : String
deriving DecidableEq, Repr

/-- The cache store: an association list from video id to record. -/
abbrev Store := List (String × CacheRecord)

/-- Read the raw record under a key. -/
def storeGet (s : Store) (k : String) : Option CacheRecord :=
  (s.find? (·.1 == k)).map (·.2)

/-- Default max_age_seconds of cache_get: 30 days, 30*24*3600 seconds. -/
def defaultMaxAge : ℚ := 2592000

/-- Model of cache.cache_get: absent key gives none; a record whose age
now - ts exceeds max_age_seconds gives none; a record whose stored text
is empty gives none (the expression text or None); otherwise the text.
The returned store is the store after the call, always unchanged. -/
def cache_get (s : Store) (now : ℚ) (vid : String) (maxAge : ℚ) :
    Option String × Store :=
  match storeGet s vid with
  | none => (none, s)
  | some r =>
    if now - r.ts > maxAge then (none, s)
    else if r.text = "" then (none, s)
    else (some r.text, s)

/-- Model of cache.cache_set: store the record with the current
timestamp, replacing any previous record under the same id. -/
def cache_set (s : Store) (now : ℚ) (vid text : String) : Store :=
  (vid, ⟨now, text⟩) :: s.filter (fun p => ¬ p.1 = vid)

/-! ## Exceptions of youtube_transcript_api and the backoff wrapper -/

/-- The exceptions captions.py imports from youtube_transcript_api, plus
otherError standing for any exception outside that family. -/
inductive PyExc where
  | tooManyRequests
  | noTranscriptFound
  | transcriptsDisabled
  | videoUnavailable
  | couldNotRetrieveTranscript
  | otherError
deriving DecidableEq, Repr

/-- Instance-of test for an except clause naming one class.  In the
youtube_transcript_api library, TooManyRequests, NoTranscriptFound,
TranscriptsDisabled and VideoUnavailable are all defined as subclasses of
CouldNotRetrieveTranscript, so that base class matches every constructor
except otherError; the leaf classes match only themselves. -/
def matchesClass (e cls : PyExc) : Bool :=
  e == cls || (cls == .couldNotRetrieveTranscript && !(e == .otherError))

/-- Catch predicate of the tuple (TooManyRequests,
CouldNotRetrieveTranscript): the on_exceptions argument of the backoff
decorator on fetch_primary, and also the first except clause of
get_captions. -/
def primaryCatch (e : PyExc) : Bool :=
  matchesClass e .tooManyRequests || matchesClass e .couldNotRetrieveTranscript

/-- Deterministic component of the backoff sleep after a caught failure
of attempt n: min(cap, base * 2^(n-1)). -/
def preDelay (base cap : ℚ) (n : Nat) : ℚ := min cap (base * 2 ^ (n - 1))

/-- Outcome of a run of the backoff wrapper: the final result (none only
in the unreachable tries=0 case, where the Python wrapper would fall off
the loop and return None), the sleeps performed in order, and the number
of attempts made. -/
structure RunResult (α : Type) where
  result : Option (Except PyExc α)
  sleeps : List ℚ
  calls : Nat

/-- Decidable equality for Except outcomes, used to evaluate runs on
concrete behaviours. -/
instance {ε α : Type} [DecidableEq ε] [DecidableEq α] :
    DecidableEq (Except ε α) := fun a b =>
  match a, b with
  | .ok x, .ok y =>
    if h : x = y then isTrue (by rw [h]) else isFalse (by simp [h])
  | .error x, .error y =>
    if h : x = y then isTrue (by rw [h]) else isFalse (by simp [h])
  | .ok _, .error _ => isFalse (by simp)
  | .error _, .ok _ => isFalse (by simp)

/-- Loop body of the backoff wrapper, with the current attempt number n
and the remaining fuel (backoffRun supplies fuel = tries, preserving
n + fuel = tries + 1).  attempts gives the outcome the wrapped operation
would produce at each attempt number; jitterf gives the value drawn by
random.uniform(0, jitter) at each attempt. -/
def backoffAux (catchP : PyExc → Bool) (tries : Nat) (base cap : ℚ)
    (jitterf : Nat → ℚ) (attempts : Nat → Except PyExc α) :
    Nat → Nat → RunResult α
  | 0, _ => ⟨none, [], 0⟩
  | fuel + 1, n =>
    match attempts n with
    | .ok v => ⟨some (.ok v), [], 1⟩
    | .error e =>
      if catchP e then
        if n = tries then ⟨some (.error e), [], 1⟩
        else
          let r := backoffAux catchP tries base cap jitterf attempts fuel (n + 1)
          ⟨r.result, (preDelay base cap n + jitterf n) :: r.sleeps, r.calls + 1⟩
      else ⟨some (.error e), [], 1⟩

/-- Model of the backoff decorator in backoff.py: attempt numbers count
from 1; an uncaught exception propagates at once; a caught failure on the
final attempt is re-raised without sleeping; otherwise the wrapper sleeps
min(cap, base*2^(attempt-1)) plus the drawn jitter and retries. -/
def backoffRun (catchP : PyExc → Bool) (tries : Nat) (base cap : ℚ)
    (jitterf : Nat → ℚ) (attempts : Nat → Except PyExc α) : RunResult α :=
  backoffAux catchP tries base cap jitterf attempts tries 1

/-! ## Primary source client (fetch_primary) -/

/-- A caption track as exposed by the captions API, together with the
behaviour of its lazy calls: fetchResult is what track.fetch() would
yield, translateFetchResult is what track.translate(to).fetch() would
yield. -/
structure TrackM where
  language_code : String
  is_generated : Bool
  is_translatable : Bool
  fetchResult : Except PyExc (List EntryM)
  translateFetchResult : Except PyExc (List EntryM)
deriving DecidableEq, Repr

/-- What the upstream API would return to one fetch_primary invocation:
the outcome of get_transcript (the direct fast path) and the outcome of
list_transcripts. -/
structure Upstream where
  directResult : Except PyExc (List EntryM)
  listResult : Except PyExc (List TrackM)
deriving DecidableEq, Repr

/-- Diagnostics dictionary: the keys the pipeline ever writes.  A missing
key is none. -/
structure Diag where
  path : Option String := none
  reason : Option String := none
  lang : Option String := none
  generated : Option Bool := none
  fromLang : Option String := none
deriving DecidableEq, Repr

/-- Model of the rank key in fetch_primary: the index of the track
language in the preferred list (or its length plus one when absent,
the ValueError branch), then 0 for a manual track and 1 for a generated
one. -/
def rankKey (prefer : List String) (t : TrackM) : Nat × Nat :=
  ((prefer.indexOf? t.language_code).getD (prefer.length + 1),
   if t.is_generated then 1 else 0)

/-- Lexicographic comparison of rank keys, the order by which sorted
arranges the candidates (key tuples compare lexicographically). -/
def rankLe (prefer : List String) (a b : TrackM) : Bool :=
  decide ((rankKey prefer a).1 < (rankKey prefer b).1) ||
    (decide ((rankKey prefer a).1 = (rankKey prefer b).1) &&
      decide ((rankKey prefer a).2 ≤ (rankKey prefer b).2))

/-- Model of sorted(list(tlist), key=rank).  The Python sort is a stable
sort by the rank key; a stable sort with respect to a total preorder has
a unique output, so the stable insertion sort produces exactly the list
sorted returns. -/
def primaryCands (prefer : List String) (tlist : List TrackM) : List TrackM :=
  List.insertionSort (fun a b => rankLe prefer a b = true) tlist

/-- Same-language pass of fetch_primary: walk the ranked candidates whose
language is literally in the preferred list and return the first
non-empty joined fetch.  This loop has no try/except, so a fetch error
propagates. -/
def samePass (prefer : List String) : List TrackM → Except PyExc (Option (String × Diag))
  | [] => .ok none
  | c :: rest =>
    if c.language_code ∈ prefer then
      match c.fetchResult with
      | .error e => .error e
      | .ok entries =>
        match joinEntries entries with
        | some t =>
          .ok (some (t, { path := some "primary_list", lang := some c.language_code,
                          generated := some c.is_generated }))
        | none => samePass prefer rest
    else samePass prefer rest

/-- Translation pass of fetch_primary: walk the ranked candidates marked
translatable; any exception of one candidate is swallowed and the walk
continues. -/
def translatePass : List TrackM → Option (String × Diag)
  | [] => none
  | c :: rest =>
    if c.is_translatable then
      match c.translateFetchResult with
      | .error _ => translatePass rest
      | .ok entries =>
        match joinEntries entries with
        | some t =>
          some (t, { path := some "primary_translated", fromLang := some c.language_code,
                     generated := some c.is_generated })
        | none => translatePass rest
    else translatePass rest

/-- Any-track pass of fetch_primary over one concatenated bucket list;
exceptions of one candidate are swallowed. -/
def anyPass : List TrackM → Option (String × Diag)
  | [] => none
  | c :: rest =>
    match c.fetchResult with
    | .error _ => anyPass rest
    | .ok entries =>
      match joinEntries entries with
      | some t =>
        some (t, { path := some "primary_any", lang := some c.language_code,
                   generated := some c.is_generated })
      | none => anyPass rest

/-- Steps 2 to 5 of fetch_primary once the track list is in hand: rank,
the same-language pass, the translation pass and the any-track pass over
the manual bucket followed by the generated bucket; exhaustion raises
NoTranscriptFound (the message no_working_track). -/
def listPhase (prefer : List String) (tlist : List TrackM) : Except PyExc (String × Diag) :=
  match samePass prefer (primaryCands prefer tlist) with
  | .error e => .error e
  | .ok (some r) => .ok r
  | .ok none =>
    match translatePass (primaryCands prefer tlist) with
    | some r => .ok r
    | none =>
      match anyPass (tlist.filter (fun t => !t.is_generated) ++
                     tlist.filter (fun t => t.is_generated)) with
      | some r => .ok r
      | none => .error .noTranscriptFound

/-- Model of captions.fetch_primary (the body wrapped by the backoff
decorator): direct fetch first, swallowing only NoTranscriptFound and
TranscriptsDisabled; then list_transcripts followed by the ranked
cascade of listPhase. -/
def fetch_primary (prefer : List String) (up : Upstream) : Except PyExc (String × Diag) :=
  match up.directResult with
  | .ok entries =>
    match joinEntries entries with
    | some t => .ok (t, { path := some "primary_direct" })
    | none =>
      match up.listResult with
      | .error e => .error e
      | .ok tlist => listPhase prefer tlist
  | .error e =>
    if matchesClass e .noTranscriptFound || matchesClass e .transcriptsDisabled then
      match up.listResult with
      | .error e2 => .error e2
      | .ok tlist => listPhase prefer tlist
    else .error e

/-! ## Secondary scrape source (fetch_fallback_ytdlp) -/

/-- What the world does to one fetch_fallback_ytdlp call: the fallback is
disabled by configuration, the yt_dlp import fails, extract_info or
download raises, reading the subtitle directory raises, or a list of
candidate .srt files (each a list of raw lines) is produced. -/
inductive FallbackWorld where
  | disabled
  | importFailed (msg : String)
  | extractFailed (msg : String)
  | readFailed (msg : String)
  | files (srt : List (List String))
deriving DecidableEq, Repr

/-- Python str.isdigit restricted to ASCII: non-empty and all digits. -/
def pyIsDigit (s : String) : Bool := !s.toList.isEmpty && s.toList.all Char.isDigit

/-- Line filter of the SRT reader: keep a stripped line unless it is
blank, purely numeric, or contains the timing arrow. -/
def keepLine (l : String) : Bool :=
  !(l == "") && !pyIsDigit l && !containsSub "-->".toList l.toList

/-- Text recovered from one .srt file: strip each line, drop the
blank/numeric/arrow lines, join with newlines, strip, empty means
absent. -/
def srtText (rawLines : List String) : Option String :=
  if pyStrip (String.intercalate "\n" ((rawLines.map pyStripS).filter keepLine)).toList = []
  then none
  else some ⟨pyStrip (String.intercalate "\n" ((rawLines.map pyStripS).filter keepLine)).toList⟩

/-- First candidate file yielding text, as in the read loop. -/
def fallbackFiles : List (List String) → Option String
  | [] => none
  | f :: rest =>
    match srtText f with
    | some t => some t
    | none => fallbackFiles rest

/-- Model of captions.fetch_fallback_ytdlp. -/
def fetch_fallback (w : FallbackWorld) : Option String × Diag :=
  match w with
  | .disabled => (none, { path := some "disabled" })
  | .importFailed m => (none, { path := some "yt_dlp", reason := some ("import_failed:" ++ m) })
  | .extractFailed m => (none, { path := some "yt_dlp", reason := some ("extract_or_download:" ++ m) })
  | .readFailed m => (none, { path := some "yt_dlp", reason := some ("read_srt:" ++ m) })
  | .files fs =>
    match fallbackFiles fs with
    | some t => (some t, { path := some "yt_dlp" })
    | none => (none, { path := some "yt_dlp", reason := some "no_srt" })

/-! ## Orchestrator (get_captions) -/

/-- The environment of one get_captions call: the upstream state seen by
each backoff attempt, the jitter draws, and the world the fallback
runs in. -/
structure Behavior where
  attempts : Nat → Upstream
  jitterf : Nat → ℚ
  fallback : FallbackWorld

/-- Default preferred languages of fetch_primary, used by get_captions. -/
def preferDefault : List String := ["en", "en-US", "en-GB"]

/-- Observable outcome of one get_captions call: the returned pair (or
the exception get_captions itself propagates), the store after the call,
the number of invocations of the primary upstream operation, whether the
secondary yt-dlp source was invoked, and the sleeps performed. -/
structure CallOut where
  res : Except PyExc (Option String × Diag)
  store : Store
  primaryCalls : Nat
  fallbackInvoked : Bool
  sleeps : List ℚ

/-- Model of captions.get_captions: identifier extraction (a falsy —
missing or empty — identifier reports no_video_id), the cache check, the
backoff-wrapped primary with tries=5, base=0.8, cap=6.0, then the first
except clause (TooManyRequests, CouldNotRetrieveTranscript) leading to
the yt-dlp fallback, the second except clause (NoTranscriptFound,
TranscriptsDisabled, VideoUnavailable) reporting unavailable, and the
final rate_limited_or_blocked report.  A successful text is written to
the cache before returning.  The none branch of the run result cannot
arise for tries = 5; Python would raise there, modelled by otherError. -/
def get_captions (url : String) (store : Store) (now : ℚ) (beh : Behavior) : CallOut :=
  match extract_video_id url with
  | none => ⟨.ok (none, { reason := some "no_video_id" }), store, 0, false, []⟩
  | some vid =>
    if vid = "" then ⟨.ok (none, { reason := some "no_video_id" }), store, 0, false, []⟩
    else
      match (cache_get store now vid defaultMaxAge).1 with
      | some t => ⟨.ok (some t, { path := some "cache" }), store, 0, false, []⟩
      | none =>
        match backoffRun primaryCatch 5 (4/5) 6 beh.jitterf
          (fun n => fetch_primary preferDefault (beh.attempts n)) with
        | ⟨some (.ok (t, meta)), sleeps, calls⟩ =>
          ⟨.ok (some t, meta), cache_set store now vid t, calls, false, sleeps⟩
        | ⟨some (.error e), sleeps, calls⟩ =>
          if primaryCatch e then
            match fetch_fallback beh.fallback with
            | (some t, meta) =>
              ⟨.ok (some t, meta), cache_set store now vid t, calls, true, sleeps⟩
            | (none, _) =>
              ⟨.ok (none, { reason := some "rate_limited_or_blocked" }), store, calls, true,
               sleeps⟩
          else if matchesClass e .noTranscriptFound || matchesClass e .transcriptsDisabled ||
              matchesClass e .videoUnavailable then
            ⟨.ok (none, { reason := some "unavailable" }), store, calls, false, sleeps⟩
          else ⟨.error e, store, calls, false, sleeps⟩
        | ⟨none, sleeps, calls⟩ => ⟨.error .otherError, store, calls, false, sleeps⟩

/-! ## Admission gate (limiter.py)

The module-level BoundedSemaphore(1) together with the fetch_slot context
manager is modelled as a labelled transition system over any number of
concurrent callers.  A caller entering the with-block acquires a permit
(blocking while none is available, so the acquire step is only enabled
when avail is positive) and moves to the holding set; leaving the block —
whether the body returned normally or raised, which is when Python runs
the exit method — returns the permit and moves the caller to the finished
set.  The small random settle sleep in the enter method does not affect
the permit accounting and is not modelled. -/

/-- State of the admission gate: available permits, the callers currently
inside the with-block, and the callers that have left it. -/
structure GateState where
  avail : Nat
  holders : List Nat
  finished : List Nat

/-- Initial state for BoundedSemaphore(1): one permit, nobody inside. -/
def gateInit : GateState := ⟨1, [], []⟩

/-- Events observable on the gate: a caller acquires the slot, or
releases it on exit with the flag telling whether the with-body ended in
an exception. -/
inductive GateEvent where
  | acq (i : Nat)
  | rel (i : Nat) (exc : Bool)

/-- One step of the gate.  Acquisition needs a free permit and a caller
that has not entered yet; release needs the caller to be holding and is
performed exactly by the exit method, on the normal path and on the
exception path alike. -/
inductive GateStep : GateState → GateEvent → GateState → Prop
  | acquire (s : GateState) (i : Nat) :
      0 < s.avail → i ∉ s.holders → i ∉ s.finished →
      GateStep s (.acq i) ⟨s.avail - 1, i :: s.holders, s.finished⟩
  | release (s : GateState) (i : Nat) (exc : Bool) :
      i ∈ s.holders →
      GateStep s (.rel i exc) ⟨s.avail + 1, s.holders.erase i, i :: s.finished⟩

/-- Reachability of a gate state together with the trace of events that
led to it. -/
inductive GateReach : GateState → List GateEvent → Prop
  | init : GateReach gateInit []
  | step {s tr e s2} : GateReach s tr → GateStep s e s2 → GateReach s2 (tr ++ [e])

/-- Number of release events of caller i in a trace. -/
def relCount (i : Nat) (tr : List GateEvent) : Nat :=
  tr.countP fun ev =>
    match ev with
    | .rel j _ => j == i
    | _ => false

/-! ## Concrete behaviours used as test inputs -/

/-- Behaviour where the upstream direct fetch succeeds at once with one
entry reading hello, and the fallback is disabled. -/
def behDirect : Behavior :=
  ⟨fun _ => ⟨.ok [⟨"hello"⟩], .error .otherError⟩, fun _ => 0, .disabled⟩

/-- Behaviour of a video whose captions are disabled: both get_transcript
and list_transcripts raise TranscriptsDisabled on every attempt. -/
def behDisabled : Behavior :=
  ⟨fun _ => ⟨.error .transcriptsDisabled, .error .transcriptsDisabled⟩, fun _ => 0, .disabled⟩

/-- Example tracks of the ranking property: generated English, manual
English, manual French (fetch behaviours irrelevant to ranking). -/
def exTrackEnGen : TrackM := ⟨"en", true, false, .ok [], .ok []⟩

/-- Manual English example track. -/
def exTrackEnMan : TrackM := ⟨"en", false, false, .ok [], .ok []⟩

/-- Manual French example track. -/
def exTrackFrMan : TrackM := ⟨"fr", false, false, .ok [], .ok []⟩

/-! ## Lemmas about the backoff wrapper -/

/-- Any actually-entered run makes at least one attempt. -/
lemma backoffAux_calls_pos (catchP : PyExc → Bool) (tries : Nat) (base cap : ℚ)
    (jitterf : Nat → ℚ) (attempts : Nat → Except PyExc α) (fuel n : Nat) (hf : 1 ≤ fuel) :
    1 ≤ (backoffAux catchP tries base cap jitterf attempts fuel n).calls := by
  match fuel, hf with
  | fuel + 1, _ =>
    unfold backoffAux
    cases attempts n with
    | ok v => simp
    | error e =>
      by_cases hc : catchP e
      · by_cases hn : n = tries <;> simp [hc, hn]
      · simp [hc]

/-- The sleeps of a run are exactly the capped exponential delays plus
jitter of the attempts that were retried, in order, whatever the attempt
outcomes are. -/
lemma backoffAux_sleeps (catchP : PyExc → Bool) (tries : Nat) (base cap : ℚ)
    (jitterf : Nat → ℚ) (attempts : Nat → Except PyExc α) :
    ∀ fuel n, n + fuel = tries + 1 →
      (backoffAux catchP tries base cap jitterf attempts fuel n).sleeps =
        (List.range ((backoffAux catchP tries base cap jitterf attempts fuel n).calls - 1)).map
          (fun k => preDelay base cap (n + k) + jitterf (n + k)) := by
  intro fuel
  induction fuel with
  | zero => intro n _; simp [backoffAux]
  | succ fuel ih =>
    intro n hinv
    unfold backoffAux
    cases attempts n with
    | ok v => simp
    | error e =>
      by_cases hc : catchP e
      · by_cases hn : n = tries
        · simp [hc, hn]
        · have hfuel : 1 ≤ fuel := by omega
          have hrec := ih (n + 1) (by omega)
          have hcalls := backoffAux_calls_pos catchP tries base cap jitterf attempts fuel (n + 1) hfuel
          simp only [hc, hn, if_true, if_false]
          obtain ⟨m, hm⟩ : ∃ m,
              (backoffAux catchP tries base cap jitterf attempts fuel (n + 1)).calls = m + 1 :=
            ⟨_, (Nat.succ_pred_eq_of_pos hcalls).symm⟩
          simp only [hrec, hm]
          rw [Nat.add_sub_cancel, Nat.succ_sub_one, List.range_succ_eq_map]
          simp only [List.map_cons, List.map_map]
          congr 1
          apply List.map_congr_left
          intro k _
          have harg : n + 1 + k = n + (k + 1) := by omega
          simp [Function.comp_apply, harg]
      · simp [hc]

/-- A run whose attempts all fail with caught exceptions re-raises the
exception of the final attempt, after making every allowed attempt and
sleeping between consecutive attempts only. -/
lemma backoffAux_allfail (catchP : PyExc → Bool) (tries : Nat) (base cap : ℚ)
    (jitterf : Nat → ℚ) (attempts : Nat → Except PyExc α) (errf : Nat → PyExc)
    (hfail : ∀ i, 1 ≤ i → i ≤ tries → attempts i = .error (errf i) ∧ catchP (errf i) = true) :
    ∀ fuel n, n + fuel = tries + 1 → 1 ≤ n → n ≤ tries →
      (backoffAux catchP tries base cap jitterf attempts fuel n).result =
          some (.error (errf tries)) ∧
        (backoffAux catchP tries base cap jitterf attempts fuel n).calls = tries + 1 - n := by
  intro fuel
  induction fuel with
  | zero => intro n hinv h1 h2; omega
  | succ fuel ih =>
    intro n hinv h1 h2
    obtain ⟨ha, hc⟩ := hfail n h1 h2
    unfold backoffAux
    rw [ha]
    by_cases hn : n = tries
    · subst hn; simp [hc]
    · have := ih (n + 1) (by omega) (by omega) (by omega)
      simp only [hc, hn, if_true, if_false]
      refine ⟨this.1, ?_⟩
      simp only [this.2]
      omega

/-- A successful run result comes from some attempt of the wrapped
operation. -/
lemma backoffAux_ok (catchP : PyExc → Bool) (tries : Nat) (base cap : ℚ)
    (jitterf : Nat → ℚ) (attempts : Nat → Except PyExc α) (v : α) :
    ∀ fuel n,
      (backoffAux catchP tries base cap jitterf attempts fuel n).result = some (.ok v) →
      ∃ i, attempts i = .ok v := by
  intro fuel
  induction fuel with
  | zero => intro n h; simp [backoffAux] at h
  | succ fuel ih =>
    intro n h
    unfold backoffAux at h
    cases ha : attempts n with
    | ok w => rw [ha] at h; simp at h; exact ⟨n, by rw [ha, h]⟩
    | error e =>
      rw [ha] at h
      by_cases hc : catchP e
      · by_cases hn : n = tries
        · simp [hc, hn] at h
        · simp only [hc, hn, if_true, if_false] at h
          exact ih (n + 1) h
      · simp [hc] at h

/-! ## Theorems for the claims about the cache and the backoff executor -/

/-- Claim C3 counterexample: a record thirty days and a second old is
reported absent by cache_get, yet the lookup does not remove it — the
store after the call still contains the expired record, contradicting
the claimed lazy eviction. -/
theorem cache_expiry_no_eviction_counterexample :
    (cache_get [("abc", ⟨0, "hello"⟩)] 2592001 "abc" defaultMaxAge).1 = none ∧
      storeGet (cache_get [("abc", ⟨0, "hello"⟩)] 2592001 "abc" defaultMaxAge).2 "abc" =
        some ⟨0, "hello"⟩ := by
  have hsg : storeGet [("abc", (⟨0, "hello"⟩ : CacheRecord))] "abc" = some ⟨0, "hello"⟩ := rfl
  have hgt : defaultMaxAge < (2592001 : ℚ) := by norm_num [defaultMaxAge]
  unfold cache_get
  rw [hsg]
  simp [hgt, hsg]

/-- Claim C3, amended: for every cached record whose age exceeds
max_age_seconds, cache_get reports absence, but the record is not
evicted — the store after the lookup is exactly the store before it. -/
theorem cache_expired_treated_absent (s : Store) (now : ℚ) (vid : String) (maxAge : ℚ)
    (r : CacheRecord) (hr : storeGet s vid = some r) (hexp : now - r.ts > maxAge) :
    (cache_get s now vid maxAge).1 = none ∧ (cache_get s now vid maxAge).2 = s := by
  unfold cache_get
  rw [hr]
  simp [hexp]

/-- Witness for the amended claim C3 at a concrete expired store. -/
theorem cache_expired_treated_absent_witness :
    (cache_get [("abc", ⟨0, "hello"⟩)] 1 "abc" 0).1 = none ∧
      (cache_get [("abc", ⟨0, "hello"⟩)] 1 "abc" 0).2 = [("abc", ⟨0, "hello"⟩)] :=
  cache_expired_treated_absent [("abc", ⟨0, "hello"⟩)] 1 "abc" 0 ⟨0, "hello"⟩ rfl
    (by simp)

/-- Claim C4: in the backoff executor, a run whose attempts keep failing
with retryable exceptions makes every allowed attempt, re-raises the
final failure, and its recorded sleeps are exactly the delays
min(cap, base*2^(n-1)) plus jitter for n = 1 .. tries-1 (so a failure on
the final attempt sleeps no more); for any behaviour whatsoever the
sleeps follow that same schedule; and with positive base the pre-jitter
delay is non-decreasing in the attempt number and saturates at cap. -/
theorem backoff_delay_schedule (tries : Nat) (base cap : ℚ) (jitterf : Nat → ℚ)
    (attempts : Nat → Except PyExc (String × Diag)) (errf : Nat → PyExc)
    (htries : 1 ≤ tries) (hb : 0 < base)
    (hfail : ∀ i, 1 ≤ i → i ≤ tries →
      attempts i = .error (errf i) ∧ primaryCatch (errf i) = true) :
    ((backoffRun primaryCatch tries base cap jitterf attempts).result =
        some (.error (errf tries)) ∧
      (backoffRun primaryCatch tries base cap jitterf attempts).calls = tries ∧
      (backoffRun primaryCatch tries base cap jitterf attempts).sleeps =
        (List.range (tries - 1)).map (fun k => preDelay base cap (k + 1) + jitterf (k + 1))) ∧
    (∀ attempts2 : Nat → Except PyExc (String × Diag),
      (backoffRun primaryCatch tries base cap jitterf attempts2).sleeps =
        (List.range ((backoffRun primaryCatch tries base cap jitterf attempts2).calls - 1)).map
          (fun k => preDelay base cap (k + 1) + jitterf (k + 1))) ∧
    (∀ n m : Nat, n ≤ m → preDelay base cap n ≤ preDelay base cap m) ∧
    (∀ n : Nat, preDelay base cap n ≤ cap) := by
  have hall := backoffAux_allfail primaryCatch tries base cap jitterf attempts errf hfail
    tries 1 (by omega) (by omega) (by omega)
  have hsl := backoffAux_sleeps primaryCatch tries base cap jitterf attempts tries 1 (by omega)
  refine ⟨⟨hall.1, by simpa using hall.2, ?_⟩, ?_, ?_, ?_⟩
  · unfold backoffRun
    rw [hsl, hall.2]
    have hsub : tries + 1 - 1 - 1 = tries - 1 := by omega
    rw [hsub]
    apply List.map_congr_left
    intro k _
    rw [Nat.add_comm 1 k]
  · intro attempts2
    have h2 := backoffAux_sleeps primaryCatch tries base cap jitterf attempts2 tries 1 (by omega)
    unfold backoffRun
    rw [h2]
    apply List.map_congr_left
    intro k _
    rw [Nat.add_comm 1 k]
  · intro n m hnm
    unfold preDelay
    apply min_le_min le_rfl
    apply mul_le_mul_of_nonneg_left _ hb.le
    exact pow_le_pow_right₀ (by norm_num) (by omega)
  · intro n
    exact min_le_left _ _

/-- Witness for claim C4: five attempts all rate limited, zero jitter. -/
theorem backoff_delay_schedule_witness :
    ((backoffRun primaryCatch 5 (4/5) 6 (fun _ => 0)
        (fun _ => (.error PyExc.tooManyRequests : Except PyExc (String × Diag)))).result =
          some (.error PyExc.tooManyRequests) ∧
      (backoffRun primaryCatch 5 (4/5) 6 (fun _ => 0)
        (fun _ => (.error PyExc.tooManyRequests : Except PyExc (String × Diag)))).calls = 5 ∧
      (backoffRun primaryCatch 5 (4/5) 6 (fun _ => 0)
        (fun _ => (.error PyExc.tooManyRequests : Except PyExc (String × Diag)))).sleeps =
        (List.range 4).map (fun k => preDelay (4/5) 6 (k + 1) + 0)) :=
  (backoff_delay_schedule 5 (4/5) 6 (fun _ => 0)
    (fun _ => (.error PyExc.tooManyRequests : Except PyExc (String × Diag)))
    (fun _ => PyExc.tooManyRequests) (by decide) (by simp)
    (fun i _ _ => ⟨rfl, rfl⟩)).1

/-! ## Lemmas about the join helper and the two sources -/

/-- A present join result is a non-empty string. -/
lemma joinEntries_ne_empty {entries : List EntryM} {t : String}
    (h : joinEntries entries = some t) : t ≠ "" := by
  unfold joinEntries at h
  split at h
  · exact absurd h (by simp)
  · next hne =>
    simp only [Option.some.injEq] at h
    intro hempty
    apply hne
    have := congrArg String.data (h.trans hempty)
    simpa using this

/-- A present SRT text is a non-empty string. -/
lemma srtText_ne_empty {lines : List String} {t : String}
    (h : srtText lines = some t) : t ≠ "" := by
  unfold srtText at h
  split at h
  · exact absurd h (by simp)
  · next hne =>
    simp only [Option.some.injEq] at h
    intro hempty
    apply hne
    have := congrArg String.data (h.trans hempty)
    simpa using this

/-- A present result of the file loop is a non-empty string. -/
lemma fallbackFiles_ne_empty {fs : List (List String)} {t : String}
    (h : fallbackFiles fs = some t) : t ≠ "" := by
  induction fs with
  | nil => exact absurd h (by simp [fallbackFiles])
  | cons f rest ih =>
    cases hf : srtText f with
    | some t2 =>
      simp only [fallbackFiles, hf, Option.some.injEq] at h
      exact h ▸ srtText_ne_empty hf
    | none =>
      simp only [fallbackFiles, hf] at h
      exact ih h

/-- A successful fallback carries exactly the yt_dlp path tag and a
non-empty text. -/
lemma fetch_fallback_some {w : FallbackWorld} {t : String} {d : Diag}
    (h : fetch_fallback w = (some t, d)) :
    d = { path := some "yt_dlp" } ∧ t ≠ "" := by
  cases w with
  | disabled => exact absurd h (by simp [fetch_fallback])
  | importFailed m => exact absurd h (by simp [fetch_fallback])
  | extractFailed m => exact absurd h (by simp [fetch_fallback])
  | readFailed m => exact absurd h (by simp [fetch_fallback])
  | files fs =>
    cases hf : fallbackFiles fs with
    | some t2 =>
      simp only [fetch_fallback, hf, Prod.mk.injEq, Option.some.injEq] at h
      obtain ⟨rfl, rfl⟩ := h
      exact ⟨rfl, fallbackFiles_ne_empty hf⟩
    | none =>
      simp only [fetch_fallback, hf, Prod.mk.injEq] at h
      exact absurd h.1 (by simp)

/-- A hit of the same-language pass carries the primary_list tag, no
reason, and non-empty text. -/
lemma samePass_some {prefer : List String} {l : List TrackM} {t : String} {d : Diag}
    (h : samePass prefer l = .ok (some (t, d))) :
    t ≠ "" ∧ d.path = some "primary_list" ∧ d.reason = none := by
  induction l with
  | nil => exact absurd h (by simp [samePass])
  | cons c rest ih =>
    by_cases hp : c.language_code ∈ prefer
    · cases hf : c.fetchResult with
      | error e =>
        simp only [samePass, hp, if_true, hf] at h
        exact absurd h (by simp)
      | ok entries =>
        cases hj : joinEntries entries with
        | none =>
          simp only [samePass, hp, if_true, hf, hj] at h
          exact ih h
        | some t2 =>
          simp only [samePass, hp, if_true, hf, hj, Except.ok.injEq, Option.some.injEq,
            Prod.mk.injEq] at h
          obtain ⟨rfl, rfl⟩ := h
          exact ⟨joinEntries_ne_empty hj, rfl, rfl⟩
    · simp only [samePass, hp, if_false] at h
      exact ih h

/-- A hit of the translation pass carries the primary_translated tag, no
reason, and non-empty text. -/
lemma translatePass_some {l : List TrackM} {t : String} {d : Diag}
    (h : translatePass l = some (t, d)) :
    t ≠ "" ∧ d.path = some "primary_translated" ∧ d.reason = none := by
  induction l with
  | nil => exact absurd h (by simp [translatePass])
  | cons c rest ih =>
    by_cases hp : c.is_translatable
    · cases hf : c.translateFetchResult with
      | error e =>
        simp only [translatePass, hp, if_true, hf] at h
        exact ih h
      | ok entries =>
        cases hj : joinEntries entries with
        | none =>
          simp only [translatePass, hp, if_true, hf, hj] at h
          exact ih h
        | some t2 =>
          simp only [translatePass, hp, if_true, hf, hj, Option.some.injEq, Prod.mk.injEq] at h
          obtain ⟨rfl, rfl⟩ := h
          exact ⟨joinEntries_ne_empty hj, rfl, rfl⟩
    · simp only [translatePass, hp, if_false] at h
      exact ih h

/-- A hit of the any-track pass carries the primary_any tag, no reason
and non-empty text. -/
lemma anyPass_some {l : List TrackM} {t : String} {d : Diag}
    (h : anyPass l = some (t, d)) :
    t ≠ "" ∧ d.path = some "primary_any" ∧ d.reason = none := by
  induction l with
  | nil => exact absurd h (by simp [anyPass])
  | cons c rest ih =>
    cases hf : c.fetchResult with
    | error e =>
      simp only [anyPass, hf] at h
      exact ih h
    | ok entries =>
      cases hj : joinEntries entries with
      | none =>
        simp only [anyPass, hf, hj] at h
        exact ih h
      | some t2 =>
        simp only [anyPass, hf, hj, Option.some.injEq, Prod.mk.injEq] at h
        obtain ⟨rfl, rfl⟩ := h
        exact ⟨joinEntries_ne_empty hj, rfl, rfl⟩

/-- A successful list-and-rank cascade returns non-empty text, no
reason, and one of the list, translated or any-track path tags. -/
lemma listPhase_ok {prefer : List String} {tlist : List TrackM} {t : String} {d : Diag}
    (h : listPhase prefer tlist = .ok (t, d)) :
    t ≠ "" ∧ d.reason = none ∧
      (d.path = some "primary_list" ∨ d.path = some "primary_translated" ∨
        d.path = some "primary_any") := by
  unfold listPhase at h
  cases hs : samePass prefer (primaryCands prefer tlist) with
  | error e => simp [hs] at h
  | ok o =>
    cases o with
    | some r =>
      obtain ⟨t2, d2⟩ := r
      simp only [hs, Except.ok.injEq, Prod.mk.injEq] at h
      obtain ⟨rfl, rfl⟩ := h
      obtain ⟨h1, h2, h3⟩ := samePass_some hs
      exact ⟨h1, h3, Or.inl h2⟩
    | none =>
      simp only [hs] at h
      cases ht : translatePass (primaryCands prefer tlist) with
      | some r =>
        obtain ⟨t2, d2⟩ := r
        simp only [ht, Except.ok.injEq, Prod.mk.injEq] at h
        obtain ⟨rfl, rfl⟩ := h
        obtain ⟨h1, h2, h3⟩ := translatePass_some ht
        exact ⟨h1, h3, Or.inr (Or.inl h2)⟩
      | none =>
        simp only [ht] at h
        cases ha : anyPass (tlist.filter (fun t => !t.is_generated) ++
            tlist.filter (fun t => t.is_generated)) with
        | some r =>
          obtain ⟨t2, d2⟩ := r
          simp only [ha, Except.ok.injEq, Prod.mk.injEq] at h
          obtain ⟨rfl, rfl⟩ := h
          obtain ⟨h1, h2, h3⟩ := anyPass_some ha
          exact ⟨h1, h3, Or.inr (Or.inr h2)⟩
        | none => simp [ha] at h

/-- A successful fetch_primary returns non-empty text, no reason, and one
of the four primary path tags. -/
lemma fetch_primary_ok {prefer : List String} {up : Upstream} {t : String} {d : Diag}
    (h : fetch_primary prefer up = .ok (t, d)) :
    t ≠ "" ∧ d.reason = none ∧
      (d.path = some "primary_direct" ∨ d.path = some "primary_list" ∨
        d.path = some "primary_translated" ∨ d.path = some "primary_any") := by
  unfold fetch_primary at h
  cases hd : up.directResult with
  | ok entries =>
    cases hj : joinEntries entries with
    | some t2 =>
      simp only [hd, hj, Except.ok.injEq, Prod.mk.injEq] at h
      obtain ⟨rfl, rfl⟩ := h
      exact ⟨joinEntries_ne_empty hj, rfl, Or.inl rfl⟩
    | none =>
      simp only [hd, hj] at h
      cases hl : up.listResult with
      | error e => simp [hl] at h
      | ok tlist =>
        simp only [hl] at h
        obtain ⟨h1, h2, h3⟩ := listPhase_ok h
        exact ⟨h1, h2, Or.inr h3⟩
  | error e =>
    by_cases hc : (matchesClass e .noTranscriptFound || matchesClass e .transcriptsDisabled) = true
    · simp only [hd, hc, if_true] at h
      cases hl : up.listResult with
      | error e2 => simp [hl] at h
      | ok tlist =>
        simp only [hl] at h
        obtain ⟨h1, h2, h3⟩ := listPhase_ok h
        exact ⟨h1, h2, Or.inr h3⟩
    · simp only [hd, hc, if_false] at h
      exact absurd h (by simp)

/-- A cache hit returns non-empty stored text. -/
lemma cache_get_some {s : Store} {now : ℚ} {vid : String} {maxAge : ℚ} {t : String}
    (h : (cache_get s now vid maxAge).1 = some t) : t ≠ "" := by
  unfold cache_get at h
  cases hr : storeGet s vid with
  | none => simp [hr] at h
  | some r =>
    simp only [hr] at h
    split_ifs at h with h1 h2
    simp only [Option.some.injEq] at h
    exact h ▸ h2

/-- A get_captions call that returns text returns a non-empty string, no
reason, one of the six path tags the code writes, and — unless the text
came from the cache — has written the text to the store under the
extracted identifier. -/
lemma get_captions_success {url : String} {store : Store} {now : ℚ} {beh : Behavior}
    {t : String} {d : Diag}
    (h : (get_captions url store now beh).res = .ok (some t, d)) :
    t ≠ "" ∧ d.reason = none ∧
      (d.path = some "cache" ∨ d.path = some "primary_direct" ∨ d.path = some "primary_list" ∨
        d.path = some "primary_translated" ∨ d.path = some "primary_any" ∨
        d.path = some "yt_dlp") ∧
      (d.path ≠ some "cache" →
        ∃ vid, extract_video_id url = some vid ∧ ¬ vid = "" ∧
          (get_captions url store now beh).store = cache_set store now vid t) := by
  cases he : extract_video_id url with
  | none => simp [get_captions, he] at h
  | some vid =>
    by_cases hv : vid = ""
    · simp [get_captions, he, hv] at h
    · cases hc : (cache_get store now vid defaultMaxAge).1 with
      | some t0 =>
        simp only [get_captions, he, hv, if_false, hc, Except.ok.injEq, Prod.mk.injEq,
          Option.some.injEq] at h
        obtain ⟨rfl, rfl⟩ := h
        exact ⟨cache_get_some hc, rfl, Or.inl rfl, fun hne => absurd rfl hne⟩
      | none =>
        cases hrun : backoffRun primaryCatch 5 (4/5) 6 beh.jitterf
            (fun n => fetch_primary preferDefault (beh.attempts n)) with
        | mk result sleeps calls =>
          cases result with
          | none => simp [get_captions, he, hv, hc, hrun] at h
          | some exc =>
            cases exc with
            | ok pr =>
              obtain ⟨t2, meta⟩ := pr
              simp only [get_captions, he, hv, if_false, hc, hrun, Except.ok.injEq,
                Prod.mk.injEq, Option.some.injEq] at h
              obtain ⟨rfl, rfl⟩ := h
              have hres : (backoffRun primaryCatch 5 (4/5) 6 beh.jitterf
                  (fun n => fetch_primary preferDefault (beh.attempts n))).result =
                    some (.ok (t2, meta)) := by rw [hrun]
              obtain ⟨i, hi⟩ := backoffAux_ok primaryCatch 5 (4/5) 6 beh.jitterf _ _ 5 1 hres
              obtain ⟨h1, h2, h3⟩ := fetch_primary_ok hi
              refine ⟨h1, h2, ?_, fun _ => ⟨vid, rfl, hv, ?_⟩⟩
              · rcases h3 with h3 | h3 | h3 | h3
                · exact Or.inr (Or.inl h3)
                · exact Or.inr (Or.inr (Or.inl h3))
                · exact Or.inr (Or.inr (Or.inr (Or.inl h3)))
                · exact Or.inr (Or.inr (Or.inr (Or.inr (Or.inl h3))))
              · simp [get_captions, he, hv, hc, hrun]
            | error e =>
              by_cases hcat : primaryCatch e = true
              · cases hf : fetch_fallback beh.fallback with
                | mk fo fmeta =>
                  cases fo with
                  | some t2 =>
                    simp only [get_captions, he, hv, if_false, hc, hrun, hcat, if_true, hf,
                      Except.ok.injEq, Prod.mk.injEq, Option.some.injEq] at h
                    obtain ⟨rfl, rfl⟩ := h
                    obtain ⟨hm, hne⟩ := fetch_fallback_some hf
                    refine ⟨hne, ?_, ?_, fun _ => ⟨vid, rfl, hv, ?_⟩⟩
                    · rw [hm]
                    · rw [hm]; exact Or.inr (Or.inr (Or.inr (Or.inr (Or.inr rfl))))
                    · simp [get_captions, he, hv, hc, hrun, hcat, hf]
                  | none =>
                    simp [get_captions, he, hv, hc, hrun, hcat, hf] at h
              · by_cases hcls : (matchesClass e .noTranscriptFound ||
                    matchesClass e .transcriptsDisabled || matchesClass e .videoUnavailable) = true
                · simp [get_captions, he, hv, hc, hrun, hcat, hcls] at h
                · simp [get_captions, he, hv, hc, hrun, hcat, hcls] at h

/-- A get_captions call that returns no text reports exactly one of the
three reasons the code writes. -/
lemma get_captions_failure {url : String} {store : Store} {now : ℚ} {beh : Behavior} {d : Diag}
    (h : (get_captions url store now beh).res = .ok (none, d)) :
    d = { reason := some "no_video_id" } ∨ d = { reason := some "unavailable" } ∨
      d = { reason := some "rate_limited_or_blocked" } := by
  cases he : extract_video_id url with
  | none =>
    simp only [get_captions, he, Except.ok.injEq, Prod.mk.injEq] at h
    exact Or.inl h.2.symm
  | some vid =>
    by_cases hv : vid = ""
    · simp only [get_captions, he, hv, if_true, Except.ok.injEq, Prod.mk.injEq] at h
      exact Or.inl h.2.symm
    · cases hc : (cache_get store now vid defaultMaxAge).1 with
      | some t0 => simp [get_captions, he, hv, hc] at h
      | none =>
        cases hrun : backoffRun primaryCatch 5 (4/5) 6 beh.jitterf
            (fun n => fetch_primary preferDefault (beh.attempts n)) with
        | mk result sleeps calls =>
          cases result with
          | none => simp [get_captions, he, hv, hc, hrun] at h
          | some exc =>
            cases exc with
            | ok pr =>
              obtain ⟨t2, meta⟩ := pr
              simp [get_captions, he, hv, hc, hrun] at h
            | error e =>
              by_cases hcat : primaryCatch e = true
              · cases hf : fetch_fallback beh.fallback with
                | mk fo fmeta =>
                  cases fo with
                  | some t2 => simp [get_captions, he, hv, hc, hrun, hcat, hf] at h
                  | none =>
                    simp only [get_captions, he, hv, if_false, hc, hrun, hcat, if_true, hf,
                      Except.ok.injEq, Prod.mk.injEq] at h
                    exact Or.inr (Or.inr h.2.symm)
              · by_cases hcls : (matchesClass e .noTranscriptFound ||
                    matchesClass e .transcriptsDisabled || matchesClass e .videoUnavailable) = true
                · simp only [get_captions, he, hv, if_false, hc, hrun, hcat, hcls,
                    Bool.false_eq_true, if_true, Except.ok.injEq, Prod.mk.injEq] at h
                  exact Or.inr (Or.inl h.2.symm)
                · simp [get_captions, he, hv, hc, hrun, hcat, hcls] at h

/-! ## Theorems for the claims about the orchestrator -/

/-- Claim C1, code bug: on a video whose captions are disabled, every
upstream call raises TranscriptsDisabled, and because that class
subclasses CouldNotRetrieveTranscript the wrapper retries it and the
first except clause of get_captions swallows it.  The call therefore
makes five upstream attempts with four backoff sleeps, invokes the
secondary yt-dlp source, and reports rate_limited_or_blocked — against
the claimed single attempt, no sleeps, no secondary invocation, and
dedicated failure diagnostics (the except clause that would report
unavailable is unreachable). -/
theorem disabled_outcome_retried_and_scraped :
    (get_captions "https://youtu.be/dQw4w9WgXcQ" [] 0 behDisabled).primaryCalls = 5 ∧
      (get_captions "https://youtu.be/dQw4w9WgXcQ" [] 0 behDisabled).sleeps.length = 4 ∧
      (get_captions "https://youtu.be/dQw4w9WgXcQ" [] 0 behDisabled).fallbackInvoked = true ∧
      (get_captions "https://youtu.be/dQw4w9WgXcQ" [] 0 behDisabled).res =
        .ok (none, { reason := some "rate_limited_or_blocked" }) := by
  decide

/-- Claim C2 counterexample: a successful direct fetch returns the
literal path tag primary_direct, which is not in the vocabulary
cache/direct/list/translated/any/scrape stated by the claim. -/
theorem diag_path_vocabulary_counterexample :
    (get_captions "https://youtu.be/dQw4w9WgXcQ" [] 0 behDirect).res =
        .ok (some "hello", { path := some "primary_direct" }) ∧
      (some "primary_direct" : Option String) ∉
        (["cache", "direct", "list", "translated", "any", "scrape"].map some) := by
  decide

/-- Claim C2, amended: for every call, a null text comes with a reason
drawn from the claimed five-word vocabulary, and a non-null text comes
with no reason and a path drawn from the tags the code actually writes:
cache, primary_direct, primary_list, primary_translated, primary_any,
yt_dlp (which the spec renders as cache/direct/list/translated/any/
scrape). -/
theorem diag_vocabulary (url : String) (store : Store) (now : ℚ) (beh : Behavior) :
    (∀ d : Diag, (get_captions url store now beh).res = .ok (none, d) →
      d.reason ∈ [some "no_video_id", some "unavailable", some "captions_disabled",
        some "rate_limited_or_blocked", some "no_working_track"]) ∧
    (∀ (t : String) (d : Diag), (get_captions url store now beh).res = .ok (some t, d) →
      d.reason = none ∧
        d.path ∈ [some "cache", some "primary_direct", some "primary_list",
          some "primary_translated", some "primary_any", some "yt_dlp"]) := by
  constructor
  · intro d h
    rcases get_captions_failure h with rfl | rfl | rfl <;> simp
  · intro t d h
    obtain ⟨_, h2, h3, _⟩ := get_captions_success h
    refine ⟨h2, ?_⟩
    rcases h3 with h3 | h3 | h3 | h3 | h3 | h3 <;> simp [h3]

/-- Witness for the amended claim C2 at a successful direct fetch. -/
theorem diag_vocabulary_witness :
    ({ path := some "primary_direct" } : Diag).reason = none ∧
      ({ path := some "primary_direct" } : Diag).path ∈
        [some "cache", some "primary_direct", some "primary_list",
          some "primary_translated", some "primary_any", some "yt_dlp"] :=
  (diag_vocabulary "https://youtu.be/dQw4w9WgXcQ" [] 0 behDirect).2 "hello"
    { path := some "primary_direct" } (by decide)

/-- Claim C9: get_captions never returns the empty string — the join
helper drops empty entries and reports absence when everything is empty,
and cache_get treats an empty stored text as a miss. -/
theorem get_captions_no_empty_text :
    (∀ (url : String) (store : Store) (now : ℚ) (beh : Behavior) (d : Diag),
      (get_captions url store now beh).res ≠ .ok (some "", d)) ∧
    (∀ (e : EntryM) (entries : List EntryM), e.text = "" →
      joinEntries (e :: entries) = joinEntries entries) ∧
    (∀ entries : List EntryM, (∀ e ∈ entries, e.text = "") → joinEntries entries = none) ∧
    (∀ (s : Store) (now : ℚ) (vid : String) (maxAge : ℚ) (r : CacheRecord),
      storeGet s vid = some r → r.text = "" → (cache_get s now vid maxAge).1 = none) := by
  refine ⟨?_, ?_, ?_, ?_⟩
  · intro url store now beh d h
    exact (get_captions_success h).1 rfl
  · intro e entries h
    unfold joinEntries
    simp [h]
  · intro entries h
    have hf : (entries.map (·.text)).filter (· ≠ "") = [] := by
      rw [List.filter_eq_nil_iff]
      intro x hx
      obtain ⟨e, he, rfl⟩ := List.mem_map.mp hx
      simp [h e he]
    unfold joinEntries
    rw [hf]
    rfl
  · intro s now vid maxAge r hget hr
    unfold cache_get
    simp only [hget]
    split_ifs with hexp
    · rfl
    · rfl

/-- Witness for claim C9 at concrete inputs. -/
theorem get_captions_no_empty_text_witness :
    ((get_captions "https://youtu.be/dQw4w9WgXcQ" [] 0 behDirect).res ≠
        .ok (some "", { path := some "cache" })) ∧
      joinEntries [⟨""⟩, ⟨"hi"⟩] = joinEntries [⟨"hi"⟩] ∧
      joinEntries [⟨""⟩] = none ∧
      (cache_get [("abc", ⟨0, ""⟩)] 0 "abc" 5).1 = none :=
  ⟨get_captions_no_empty_text.1 "https://youtu.be/dQw4w9WgXcQ" [] 0 behDirect _,
    get_captions_no_empty_text.2.1 ⟨""⟩ [⟨"hi"⟩] rfl,
    get_captions_no_empty_text.2.2.1 [⟨""⟩] (by decide),
    get_captions_no_empty_text.2.2.2 [("abc", ⟨0, ""⟩)] 0 "abc" 5 ⟨0, ""⟩ rfl rfl⟩

/-- Claim C7: after a get_captions call that fetched text t (writing it
to the cache), a second call for the same URL against the resulting
store, within the cache TTL, performs no upstream work at all — zero
primary attempts, no fallback invocation, no sleeps — and returns the
byte-identical text with the cache path tag. -/
theorem get_captions_cache_roundtrip (url : String) (store : Store) (now : ℚ)
    (beh : Behavior) (t : String) (d : Diag) (now2 : ℚ) (beh2 : Behavior)
    (hres : (get_captions url store now beh).res = .ok (some t, d))
    (hnoc : d.path ≠ some "cache")
    (httl : now2 - now ≤ defaultMaxAge) :
    get_captions url (get_captions url store now beh).store now2 beh2 =
      ⟨.ok (some t, { path := some "cache" }),
        (get_captions url store now beh).store, 0, false, []⟩ := by
  obtain ⟨hne, _, _, hw⟩ := get_captions_success hres
  obtain ⟨vid, hvid, hvne, hst⟩ := hw hnoc
  rw [hst]
  have hfind : storeGet (cache_set store now vid t) vid = some ⟨now, t⟩ := by
    unfold storeGet cache_set
    simp
  have hcg : (cache_get (cache_set store now vid t) now2 vid defaultMaxAge).1 = some t := by
    unfold cache_get
    simp only [hfind]
    rw [if_neg (not_lt.mpr httl), if_neg hne]
  simp only [get_captions, hvid, hvne, if_false, hcg]

/-- Witness for claim C7: a direct-fetch success followed by a second
call at the same instant. -/
theorem get_captions_cache_roundtrip_witness :
    get_captions "https://youtu.be/dQw4w9WgXcQ"
        (get_captions "https://youtu.be/dQw4w9WgXcQ" [] 0 behDirect).store 0 behDisabled =
      ⟨.ok (some "hello", { path := some "cache" }),
        (get_captions "https://youtu.be/dQw4w9WgXcQ" [] 0 behDirect).store, 0, false, []⟩ :=
  get_captions_cache_roundtrip "https://youtu.be/dQw4w9WgXcQ" [] 0 behDirect "hello"
    { path := some "primary_direct" } 0 behDisabled (by decide) (by decide)
    (by simp [defaultMaxAge])

/-! ## Theorems for the ranking claim -/

/-- The candidate comparison is total. -/
lemma rankLe_total (prefer : List String) (a b : TrackM) :
    rankLe prefer a b = true ∨ rankLe prefer b a = true := by
  simp only [rankLe, Bool.or_eq_true, Bool.and_eq_true, decide_eq_true_eq]
  omega

/-- The candidate comparison is transitive. -/
lemma rankLe_trans (prefer : List String) (a b c : TrackM)
    (h1 : rankLe prefer a b = true) (h2 : rankLe prefer b c = true) :
    rankLe prefer a c = true := by
  simp only [rankLe, Bool.or_eq_true, Bool.and_eq_true, decide_eq_true_eq] at h1 h2 ⊢
  omega

/-- Claim C6: the candidate list produced by sorting on the rank key is a
permutation of the input arranged ascending by the key; a strictly
better language preference dominates the comparison regardless of the
generated flag; and on the example tracks en/generated, en/manual,
fr/manual with preferred list en, the order is en/manual, en/generated,
fr/manual. -/
theorem track_ranking :
    (∀ (prefer : List String) (tlist : List TrackM),
      List.Pairwise (fun a b => rankLe prefer a b = true) (primaryCands prefer tlist)) ∧
    (∀ (prefer : List String) (tlist : List TrackM),
      (primaryCands prefer tlist).Perm tlist) ∧
    (∀ (prefer : List String) (a b : TrackM),
      (rankKey prefer a).1 < (rankKey prefer b).1 →
        rankLe prefer a b = true ∧ rankLe prefer b a = false) ∧
    primaryCands ["en"] [exTrackEnGen, exTrackEnMan, exTrackFrMan] =
      [exTrackEnMan, exTrackEnGen, exTrackFrMan] := by
  refine ⟨?_, ?_, ?_, by decide⟩
  · intro prefer tlist
    haveI : IsTotal TrackM (fun a b => rankLe prefer a b = true) := ⟨rankLe_total prefer⟩
    haveI : IsTrans TrackM (fun a b => rankLe prefer a b = true) :=
      ⟨fun a b c => rankLe_trans prefer a b c⟩
    exact List.sorted_insertionSort _ tlist
  · intro prefer tlist
    exact List.perm_insertionSort _ tlist
  · intro prefer a b hlt
    constructor
    · simp only [rankLe, Bool.or_eq_true, Bool.and_eq_true, decide_eq_true_eq]
      omega
    · have h1 : ¬ (rankKey prefer b).1 < (rankKey prefer a).1 := by omega
      have h2 : ¬ (rankKey prefer b).1 = (rankKey prefer a).1 := by omega
      simp [rankLe, h1, h2]

/-- Witness for claim C6: the preferred-language English manual track
strictly dominates the French one. -/
theorem track_ranking_witness :
    rankLe ["en"] exTrackEnMan exTrackFrMan = true ∧
      rankLe ["en"] exTrackFrMan exTrackEnMan = false :=
  track_ranking.2.2.1 ["en"] exTrackEnMan exTrackFrMan (by decide)

/-! ## Theorems for the identifier length claim -/

/-- A shape match extracted by tryShape is exactly eleven characters. -/
lemma tryShape_some_facts {pat l tok : List Char} (h : tryShape pat l = some tok) :
    startsWithL pat l = true ∧ tok = (l.drop pat.length).take 11 ∧
      tok.length = 11 ∧ tok.all tokenChar = true := by
  unfold tryShape at h
  by_cases h1 : startsWithL pat l = true
  · rw [if_pos h1] at h
    by_cases h2 : (((l.drop pat.length).take 11).length == 11 &&
        ((l.drop pat.length).take 11).all tokenChar) = true
    · rw [if_pos h2] at h
      simp only [Option.some.injEq] at h
      simp only [Bool.and_eq_true, beq_iff_eq] at h2
      exact ⟨h1, h.symm, h ▸ h2.1, h ▸ h2.2⟩
    · rw [if_neg h2] at h
      exact absurd h (by simp)
  · rw [if_neg h1] at h
    exact absurd h (by simp)

/-- A token found by the regular-expression scan has eleven characters. -/
lemma scanShapes_some_length {l tok : List Char} (h : scanShapes l = some tok) :
    tok.length = 11 := by
  induction l with
  | nil => simp [scanShapes] at h
  | cons c cs ih =>
    unfold scanShapes at h
    cases h1 : tryShape "/embed/".toList (c :: cs) with
    | some t =>
      rw [h1] at h
      simp only [Option.some.injEq] at h
      exact h ▸ (tryShape_some_facts h1).2.2.1
    | none =>
      rw [h1] at h
      cases h2 : tryShape "/v/".toList (c :: cs) with
      | some t =>
        rw [h2] at h
        simp only [Option.some.injEq] at h
        exact h ▸ (tryShape_some_facts h2).2.2.1
      | none =>
        rw [h2] at h
        cases h3 : tryShape "/shorts/".toList (c :: cs) with
        | some t =>
          rw [h3] at h
          simp only [Option.some.injEq] at h
          exact h ▸ (tryShape_some_facts h3).2.2.1
        | none =>
          rw [h3] at h
          exact ih h

/-- Claim C10: extract_video_id always returns absence or a string of at
most eleven characters — query and youtu.be candidates are truncated to
eleven characters but a shorter candidate is returned as-is, as the
concrete three-character candidate shows. -/
theorem extract_video_id_length_bound :
    (∀ url : String, extract_video_id url = none ∨
      ∃ r, extract_video_id url = some r ∧ r.length ≤ 11) ∧
    extract_video_id "https://x.com/?v=abc" = some "abc" := by
  constructor
  · intro url
    cases hp : pyUrlsplit url.data with
    | none => exact Or.inl (by simp [extract_video_id, hp])
    | some u =>
      cases hq : qsFirst ['v'] (parse_qsl u.query) with
      | some v0 =>
        refine Or.inr ⟨⟨v0.take 11⟩, by simp [extract_video_id, hp, hq], ?_⟩
        have hl : (⟨v0.take 11⟩ : String).length = (v0.take 11).length := rfl
        rw [hl, List.length_take]
        omega
      | none =>
        by_cases hh : containsSub "youtu.be".toList (u.netloc.map Char.toLower) = true
        · have hh2 : containsSub ['y', 'o', 'u', 't', 'u', '.', 'b', 'e']
              (u.netloc.map Char.toLower) = true := hh
          refine Or.inr ⟨⟨((pySplitOn '/' (stripSlashes u.path)).headD []).take 11⟩,
            by simp [extract_video_id, hp, hq, hh2], ?_⟩
          have hl : (⟨((pySplitOn '/' (stripSlashes u.path)).headD []).take 11⟩ : String).length =
              (((pySplitOn '/' (stripSlashes u.path)).headD []).take 11).length := rfl
          rw [hl, List.length_take]
          omega
        · have hh2 : containsSub ['y', 'o', 'u', 't', 'u', '.', 'b', 'e']
              (u.netloc.map Char.toLower) = false := by simpa using hh
          cases hs : scanShapes u.path with
          | none => exact Or.inl (by simp [extract_video_id, hp, hq, hh2, hs])
          | some tok =>
            refine Or.inr ⟨⟨tok⟩, by simp [extract_video_id, hp, hq, hh2, hs], ?_⟩
            have hl : (⟨tok⟩ : String).length = tok.length := rfl
            rw [hl, scanShapes_some_length hs]
  · decide

/-! ## Theorems for the admission-gate claim -/

/-- Inductive invariant of the gate: the available permits and the held
permits always sum to the capacity one, the holder and finished sets are
duplicate-free and disjoint, and the trace contains exactly one release
per finished caller and none for anybody else. -/
lemma gate_invariant {s : GateState} {tr : List GateEvent} (h : GateReach s tr) :
    s.avail + s.holders.length = 1 ∧ s.holders.Nodup ∧ s.finished.Nodup ∧
      (∀ i, i ∈ s.holders → i ∉ s.finished) ∧
      (∀ i, relCount i tr = if i ∈ s.finished then 1 else 0) := by
  induction h with
  | init => simp [gateInit, relCount]
  | step hreach hstep ih =>
    obtain ⟨ih1, ih2, ih3, ih4, ih5⟩ := ih
    cases hstep with
    | acquire i hav hnh hnf =>
      refine ⟨by simp only [List.length_cons]; omega,
        List.nodup_cons.mpr ⟨hnh, ih2⟩, ih3, ?_, ?_⟩
      · intro j hj
        rcases List.mem_cons.mp hj with rfl | hj2
        · exact hnf
        · exact ih4 j hj2
      · intro j
        unfold relCount at ih5 ⊢
        rw [List.countP_append]
        simpa using ih5 j
    | release i exc hmem =>
      have hpos := List.length_pos_of_mem hmem
      refine ⟨?_, ih2.erase i, List.nodup_cons.mpr ⟨ih4 i hmem, ih3⟩, ?_, ?_⟩
      · simp only [List.length_erase_of_mem hmem]
        omega
      · intro j hj
        obtain ⟨hne, hj2⟩ := (List.Nodup.mem_erase_iff ih2).mp hj
        intro hc
        rcases List.mem_cons.mp hc with rfl | hc2
        · exact hne rfl
        · exact ih4 j hj2 hc2
      · intro j
        unfold relCount at ih5 ⊢
        rw [List.countP_append]
        by_cases hij : i = j
        · subst hij
          have hnotfin := ih4 i hmem
          simp [ih5 i, hnotfin, List.countP_cons]
        · have hji : j ≠ i := fun hh => hij hh.symm
          simp [ih5 j, List.countP_cons, List.mem_cons, hji, hij]

/-- Claim C8: along every reachable execution of the gate, the number of
concurrently held slots never exceeds the capacity one; every caller that
has left the with-block released its slot exactly once, no caller
releases more than once, and the release transition is available for a
normal exit and an exceptional exit alike. -/
theorem admission_gate_release_once (s : GateState) (tr : List GateEvent)
    (h : GateReach s tr) :
    s.holders.length ≤ 1 ∧
      (∀ i, i ∈ s.finished → relCount i tr = 1) ∧
      (∀ i, relCount i tr ≤ 1) ∧
      (∀ (i : Nat) (exc : Bool), i ∈ s.holders →
        GateStep s (.rel i exc) ⟨s.avail + 1, s.holders.erase i, i :: s.finished⟩) := by
  obtain ⟨h1, _, _, _, h5⟩ := gate_invariant h
  refine ⟨by omega, ?_, ?_, ?_⟩
  · intro i hi
    rw [h5 i, if_pos hi]
  · intro i
    rw [h5 i]
    split <;> omega
  · intro i exc hmem
    exact GateStep.release s i exc hmem

/-- Witness for claim C8: one caller acquires the slot and releases it
from the exception path. -/
theorem admission_gate_release_once_witness :
    (⟨1, [], [0]⟩ : GateState).holders.length ≤ 1 ∧
      (∀ i, i ∈ (⟨1, [], [0]⟩ : GateState).finished →
        relCount i [.acq 0, .rel 0 true] = 1) ∧
      (∀ i, relCount i [.acq 0, .rel 0 true] ≤ 1) ∧
      (∀ (i : Nat) (exc : Bool), i ∈ (⟨1, [], [0]⟩ : GateState).holders →
        GateStep ⟨1, [], [0]⟩ (.rel i exc)
          ⟨1 + 1, ([] : List Nat).erase i, i :: [0]⟩) :=
  admission_gate_release_once ⟨1, [], [0]⟩ [.acq 0, .rel 0 true]
    (GateReach.step (GateReach.step GateReach.init
        (GateStep.acquire gateInit 0 (by decide) (by decide) (by decide)))
      (GateStep.release ⟨0, [0], []⟩ 0 true (by decide)))

/-! ## List lemmas for the URL-parsing claim -/

/-- breakAt splits its input into its two components. -/
lemma breakAt_eq_append (stops : List Char) (l : List Char) :
    (breakAt stops l).1 ++ (breakAt stops l).2 = l := by
  induction l with
  | nil => rfl
  | cons c cs ih =>
    by_cases hc : c ∈ stops
    · simp [breakAt, hc]
    · simp [breakAt, hc, ih]

/-- A list without stop characters is returned whole. -/
lemma breakAt_noStop {stops l : List Char} (h : ∀ c ∈ l, c ∉ stops) :
    breakAt stops l = (l, []) := by
  induction l with
  | nil => rfl
  | cons c cs ih =>
    have hc := h c (List.mem_cons_self ..)
    simp only [breakAt, hc, if_false]
    rw [ih fun d hd => h d (List.mem_cons_of_mem _ hd)]

/-- Appending after a stop-free block pushes breakAt into the suffix. -/
lemma breakAt_append_noStop {stops : List Char} (xs ys : List Char)
    (h : ∀ c ∈ xs, c ∉ stops) :
    breakAt stops (xs ++ ys) = (xs ++ (breakAt stops ys).1, (breakAt stops ys).2) := by
  induction xs with
  | nil => simp
  | cons c cs ih =>
    have hc := h c (List.mem_cons_self ..)
    have ih2 := ih fun d hd => h d (List.mem_cons_of_mem _ hd)
    simp only [List.cons_append, breakAt, hc, if_false, List.append_eq, ih2]

/-- When the first block already contains a stop, appending happens
after the split point. -/
lemma breakAt_append_stop {stops : List Char} (xs ys : List Char)
    (h : (breakAt stops xs).2 ≠ []) :
    breakAt stops (xs ++ ys) = ((breakAt stops xs).1, (breakAt stops xs).2 ++ ys) := by
  induction xs with
  | nil => simp [breakAt] at h
  | cons c cs ih =>
    by_cases hc : c ∈ stops
    · simp [breakAt, hc]
    · have h2 : (breakAt stops cs).2 ≠ [] := by
        simpa [breakAt, hc] using h
      simp [breakAt, hc, ih h2]

/-- The head of the rest component is a stop character. -/
lemma breakAt_snd_mem {stops l : List Char} {c : Char} {rest : List Char}
    (h : (breakAt stops l).2 = c :: rest) : c ∈ stops := by
  induction l with
  | nil => simp [breakAt] at h
  | cons d ds ih =>
    by_cases hd : d ∈ stops
    · simp only [breakAt, hd, if_true] at h
      obtain ⟨rfl, -⟩ := List.cons.injEq .. ▸ h
      exact hd
    · simp only [breakAt, hd, if_false] at h
      exact ih h

/-- Dropping from the left does nothing once the first block survives
dropWhile unchanged. -/
lemma dropWhile_append_eq_self {p : Char → Bool} {xs : List Char} (ys : List Char)
    (h : xs.dropWhile p = xs) (hne : xs ≠ []) :
    (xs ++ ys).dropWhile p = xs ++ ys := by
  cases xs with
  | nil => exact absurd rfl hne
  | cons c cs =>
    have hpc : p c = false := by
      by_contra hch
      have hpc2 : p c = true := by
        cases hcc : p c
        · exact absurd hcc hch
        · rfl
      have hself := h
      rw [List.dropWhile_cons, hpc2] at hself
      have hlen := congrArg List.length hself
      have hle := (List.dropWhile_sublist (l := cs) (p := p)).length_le
      simp at hlen
      omega
    simp [List.dropWhile_cons, hpc]

/-- Every list is a segment of itself. -/
lemma subSeg_refl (l : List Char) : SubSeg l l := ⟨[], [], by simp⟩

/-- Segments compose. -/
lemma subSeg_trans {m l k : List Char} (h1 : SubSeg m l) (h2 : SubSeg l k) : SubSeg m k := by
  obtain ⟨a, b, rfl⟩ := h1
  obtain ⟨c, d, rfl⟩ := h2
  exact ⟨c ++ a, b ++ d, by simp⟩

/-- Members of a segment are members of the whole. -/
lemma subSeg_mem {m l : List Char} {c : Char} (h : SubSeg m l) (hc : c ∈ m) : c ∈ l := by
  obtain ⟨a, b, rfl⟩ := h
  simp [hc]

/-- Mapping preserves segments. -/
lemma subSeg_map {m l : List Char} (f : Char → Char) (h : SubSeg m l) :
    SubSeg (m.map f) (l.map f) := by
  obtain ⟨a, b, rfl⟩ := h
  exact ⟨a.map f, b.map f, by simp⟩

/-- Prepending preserves segments. -/
lemma subSeg_cons {m l : List Char} (c : Char) (h : SubSeg m l) : SubSeg m (c :: l) := by
  obtain ⟨a, b, rfl⟩ := h
  exact ⟨c :: a, b, by simp⟩

/-- Characterisation of the boolean list-prefix test. -/
lemma startsWithL_iff {p l : List Char} : startsWithL p l = true ↔ ∃ r, l = p ++ r := by
  induction p generalizing l with
  | nil => simp [startsWithL]
  | cons pc ps ih =>
    cases l with
    | nil => simp [startsWithL]
    | cons c cs =>
      simp only [startsWithL, Bool.and_eq_true, beq_iff_eq, ih, List.cons_append,
        List.cons.injEq]
      constructor
      · rintro ⟨rfl, r, rfl⟩
        exact ⟨r, rfl, rfl⟩
      · rintro ⟨r, rfl, rfl⟩
        exact ⟨rfl, r, rfl⟩

/-- A list starts with itself before any suffix. -/
lemma startsWithL_append_self (p r : List Char) : startsWithL p (p ++ r) = true :=
  startsWithL_iff.mpr ⟨r, rfl⟩

/-- Characterisation of the boolean substring test. -/
lemma containsSub_iff {pat l : List Char} :
    containsSub pat l = true ↔ ∃ a b, l = a ++ pat ++ b := by
  induction l with
  | nil =>
    simp only [containsSub, startsWithL_iff]
    constructor
    · rintro ⟨r, hr⟩
      exact ⟨[], r, by simpa using hr⟩
    · rintro ⟨a, b, hab⟩
      obtain ⟨h3, h4, h5⟩ :=
        (by simpa [List.append_assoc] using hab.symm : a = [] ∧ pat = [] ∧ b = [])
      exact ⟨[], by simp [h4]⟩
  | cons c cs ih =>
    simp only [containsSub, Bool.or_eq_true, startsWithL_iff, ih]
    constructor
    · rintro (⟨r, hr⟩ | ⟨a, b, rfl⟩)
      · exact ⟨[], r, by simpa using hr⟩
      · exact ⟨c :: a, b, by simp⟩
    · rintro ⟨a, b, hab⟩
      cases a with
      | nil =>
        exact Or.inl ⟨b, by simpa using hab⟩
      | cons a0 as =>
        simp only [List.cons_append, List.cons.injEq] at hab
        exact Or.inr ⟨as, b, hab.2⟩

/-- The substring test is monotone with respect to segments. -/
lemma containsSub_mono {pat m l : List Char} (hsub : SubSeg m l)
    (h : containsSub pat m = true) : containsSub pat l = true := by
  obtain ⟨a, b, hm⟩ := containsSub_iff.mp h
  exact containsSub_iff.mpr (by
    obtain ⟨x, y, rfl⟩ := hsub
    exact ⟨x ++ a, b ++ y, by simp [hm]⟩)

/-- unquote is the identity on percent-free text. -/
lemma pyUnquote_id (l : List Char) (h : ∀ c ∈ l, c ≠ '%') : pyUnquote l = l := by
  induction l using pyUnquote.induct with
  | case1 => rfl
  | case2 a b rest2 x y hx hy ih =>
    exact absurd rfl (h '%' (by simp))
  | case3 a b rest2 hm ih =>
    exact absurd rfl (h '%' (by simp))
  | case4 c rest hne ih =>
    simp only [pyUnquote, hne]
    rw [ih fun d hd => h d (List.mem_cons_of_mem _ hd)]

/-- The plus translation is the identity on plus-free text. -/
lemma map_plusToSpace_id {l : List Char} (h : ∀ c ∈ l, c ≠ '+') :
    l.map plusToSpace = l := by
  induction l with
  | nil => rfl
  | cons c cs ih =>
    have hc := h c (List.mem_cons_self ..)
    simp only [List.map_cons, plusToSpace, beq_iff_eq, if_neg hc]
    rw [ih fun d hd => h d (List.mem_cons_of_mem _ hd)]

/-- unquote_plus is the identity on text without percent or plus. -/
lemma pyUnquotePlus_id {l : List Char} (h : ∀ c ∈ l, c ≠ '%' ∧ c ≠ '+') :
    pyUnquotePlus l = l := by
  unfold pyUnquotePlus
  rw [map_plusToSpace_id fun c hc => (h c hc).2,
    pyUnquote_id _ fun c hc => (h c hc).1]

/-- The plus translation only produces a percent sign from one. -/
lemma plusToSpace_eq_percent {c : Char} (h : plusToSpace c = '%') : c = '%' := by
  unfold plusToSpace at h
  split_ifs at h
  · exact absurd h (by decide)
  · exact h

/-- A percent-free name whose unquote_plus reads v is the single letter
v itself. -/
lemma pyUnquotePlus_eq_single_v {name : List Char} (h : ∀ c ∈ name, c ≠ '%')
    (he : pyUnquotePlus name = ['v']) : name = ['v'] := by
  unfold pyUnquotePlus at he
  have hm : ∀ c ∈ name.map plusToSpace, c ≠ '%' := by
    intro c hc hcp
    obtain ⟨d, hd, rfl⟩ := List.mem_map.mp hc
    exact h d hd (plusToSpace_eq_percent hcp)
  rw [pyUnquote_id _ hm] at he
  cases name with
  | nil => simp at he
  | cons c cs =>
    simp only [List.map_cons, List.cons.injEq] at he
    obtain ⟨h1, h2⟩ := he
    have hcs : cs = [] := by
      have := congrArg List.length h2
      simpa using List.eq_nil_of_length_eq_zero (by simpa using this)
    subst hcs
    have hc : c = 'v' := by
      unfold plusToSpace at h1
      split_ifs at h1
      · exact absurd h1 (by decide)
      · exact h1
    rw [hc]

/-- str.split never yields an empty chunk list. -/
lemma pySplitOn_ne_nil (sep : Char) (l : List Char) : pySplitOn sep l ≠ [] := by
  induction l with
  | nil => simp [pySplitOn]
  | cons c cs ih =>
    by_cases hc : (c == sep) = true
    · simp [pySplitOn, hc]
    · cases hsp : pySplitOn sep cs with
      | nil => exact absurd hsp ih
      | cons h0 t => simp [pySplitOn, hc, hsp]

/-- A separator-free list splits into itself alone. -/
lemma pySplitOn_noSep {sep : Char} {l : List Char} (h : ∀ c ∈ l, (c == sep) = false) :
    pySplitOn sep l = [l] := by
  induction l with
  | nil => rfl
  | cons c cs ih =>
    have hc := h c (List.mem_cons_self ..)
    have ih2 := ih fun d hd => h d (List.mem_cons_of_mem _ hd)
    simp [pySplitOn, hc, ih2]

/-- The first chunk of str.split is a prefix of the input. -/
lemma pySplitOn_head_front (sep : Char) (l : List Char) :
    ∃ rest, l = (pySplitOn sep l).headD [] ++ rest := by
  induction l with
  | nil => exact ⟨[], rfl⟩
  | cons c cs ih =>
    by_cases hc : (c == sep) = true
    · exact ⟨c :: cs, by simp [pySplitOn, hc]⟩
    · cases hsp : pySplitOn sep cs with
      | nil => exact absurd hsp (pySplitOn_ne_nil sep cs)
      | cons h0 t =>
        have hc2 : (c == sep) = false := by simpa using hc
        obtain ⟨rest, hrest⟩ := ih
        rw [hsp] at hrest
        simp only [List.headD_cons] at hrest
        refine ⟨rest, ?_⟩
        simp only [pySplitOn, hc2, Bool.false_eq_true, if_false, hsp, List.headD_cons,
          List.cons_append]
        rw [← hrest]

/-- Every chunk of str.split occurs contiguously in the input. -/
lemma pySplitOn_mem_subseg (sep : Char) :
    ∀ (l nv : List Char), nv ∈ pySplitOn sep l → SubSeg nv l := by
  intro l
  induction l with
  | nil =>
    intro nv h
    simp only [pySplitOn, List.mem_singleton] at h
    subst h
    exact subSeg_refl []
  | cons c cs ih =>
    intro nv h
    by_cases hc : (c == sep) = true
    · simp only [pySplitOn, hc, if_true, List.mem_cons] at h
      rcases h with rfl | h2
      · exact ⟨[], c :: cs, rfl⟩
      · exact subSeg_cons c (ih nv h2)
    · cases hsp : pySplitOn sep cs with
      | nil => exact absurd hsp (pySplitOn_ne_nil sep cs)
      | cons h0 t =>
        have hc2 : (c == sep) = false := by simpa using hc
        simp only [pySplitOn, hc2, Bool.false_eq_true, if_false, hsp, List.mem_cons] at h
        rcases h with rfl | h2
        · obtain ⟨rest, hrest⟩ := pySplitOn_head_front sep cs
          rw [hsp] at hrest
          simp only [List.headD_cons] at hrest
          exact ⟨[], rest, by simp [hrest]⟩
        · exact subSeg_cons c (ih nv (by rw [hsp]; exact List.mem_cons_of_mem _ h2))

/-! ## Lemmas about the shape scan and the urlsplit phases -/

/-- The pattern immediately followed by a valid token succeeds. -/
lemma tryShape_append_self (pat T : List Char) (hlen : T.length = 11)
    (hall : T.all tokenChar = true) : tryShape pat (pat ++ T) = some T := by
  unfold tryShape
  rw [if_pos (startsWithL_append_self pat T), List.drop_left]
  have ht : T.take 11 = T := by rw [← hlen, List.take_length]
  rw [ht, if_pos (by simp [hlen, hall])]

/-- A successful tryShape exhibits the pattern-plus-token occurrence at
the head. -/
lemma tryShape_some_subseg {pat l tok : List Char} (h : tryShape pat l = some tok) :
    SubSeg (pat ++ tok) l ∧ tok.length = 11 ∧ tok.all tokenChar = true := by
  obtain ⟨hsw, htokeq, hlen, hall⟩ := tryShape_some_facts h
  obtain ⟨r, rfl⟩ := startsWithL_iff.mp hsw
  rw [List.drop_left] at htokeq
  refine ⟨⟨[], r.drop 11, ?_⟩, hlen, hall⟩
  subst htokeq
  simp [List.take_append_drop]

/-- A successful regular-expression scan exhibits one of the three path
patterns followed by a valid token, somewhere in the input. -/
lemma scanShapes_subseg :
    ∀ l tok : List Char, scanShapes l = some tok →
      ∃ pat, pat ∈ ["/embed/".toList, "/v/".toList, "/shorts/".toList] ∧
        SubSeg (pat ++ tok) l ∧ tok.length = 11 ∧ tok.all tokenChar = true := by
  intro l
  induction l with
  | nil => intro tok h; simp [scanShapes] at h
  | cons c cs ih =>
    intro tok h
    unfold scanShapes at h
    cases h1 : tryShape "/embed/".toList (c :: cs) with
    | some t1 =>
      rw [h1] at h
      simp only [Option.some.injEq] at h
      subst h
      obtain ⟨hs, hl, ha⟩ := tryShape_some_subseg h1
      exact ⟨_, by simp, hs, hl, ha⟩
    | none =>
      rw [h1] at h
      cases h2 : tryShape "/v/".toList (c :: cs) with
      | some t2 =>
        rw [h2] at h
        simp only [Option.some.injEq] at h
        subst h
        obtain ⟨hs, hl, ha⟩ := tryShape_some_subseg h2
        exact ⟨_, by simp, hs, hl, ha⟩
      | none =>
        rw [h2] at h
        cases h3 : tryShape "/shorts/".toList (c :: cs) with
        | some t3 =>
          rw [h3] at h
          simp only [Option.some.injEq] at h
          subst h
          obtain ⟨hs, hl, ha⟩ := tryShape_some_subseg h3
          exact ⟨_, by simp, hs, hl, ha⟩
        | none =>
          rw [h3] at h
          obtain ⟨pat, hp, hs, hl, ha⟩ := ih tok h
          exact ⟨pat, hp, subSeg_cons c hs, hl, ha⟩

/-- A pattern-plus-token occurrence makes the occurrence check true. -/
lemma containsShapeToken_of_subseg {pat tok s : List Char}
    (hsub : SubSeg (pat ++ tok) s) (hlen : tok.length = 11)
    (hall : tok.all tokenChar = true) : containsShapeToken pat s = true := by
  obtain ⟨a, b, rfl⟩ := hsub
  unfold containsShapeToken
  rw [List.any_eq_true]
  refine ⟨a.length, ?_, ?_⟩
  · rw [List.mem_range]
    have : a.length ≤ (a ++ (pat ++ tok) ++ b).length := by simp
    omega
  · have hdrop : (a ++ (pat ++ tok) ++ b).drop a.length = pat ++ (tok ++ b) := by
      rw [List.append_assoc, List.drop_left]
      simp [List.append_assoc]
    rw [hdrop, startsWithL_append_self, List.drop_left]
    have htake : (tok ++ b).take 11 = tok := by
      rw [← hlen, List.take_left]
    rw [htake]
    simp [hlen, hall]

/-- A pattern-plus-token occurrence of one of the three path patterns
makes the shape-occurrence check true. -/
lemma hasShapeOcc_of_subseg {pat tok s : List Char}
    (hp : pat ∈ ["/embed/".toList, "/v/".toList, "/shorts/".toList])
    (hsub : SubSeg (pat ++ tok) s) (hlen : tok.length = 11)
    (hall : tok.all tokenChar = true) : hasShapeOcc s = true := by
  unfold hasShapeOcc
  rw [List.any_eq_true]
  exact ⟨pat, hp, containsShapeToken_of_subseg hsub hlen hall⟩

/-- The first component of splitOff is the pre-separator block. -/
lemma splitOff_fst (c : Char) (l : List Char) :
    (splitOff c l).1 = (breakAt [c] l).1 := by
  unfold splitOff
  cases hbr : (breakAt [c] l).2 <;> rfl

/-- The first component of splitOff is a prefix of the input. -/
lemma splitOff_fst_front (c : Char) (l : List Char) :
    ∃ b, l = (splitOff c l).1 ++ b :=
  ⟨(breakAt [c] l).2, by rw [splitOff_fst]; exact (breakAt_eq_append [c] l).symm⟩

/-- The second component of splitOff is a suffix of the input. -/
lemma splitOff_snd_suffix (c : Char) (l : List Char) :
    ∃ a, l = a ++ (splitOff c l).2 := by
  unfold splitOff
  cases hbr : (breakAt [c] l).2 with
  | nil =>
    exact ⟨l, by simp⟩
  | cons x rest =>
    refine ⟨(breakAt [c] l).1 ++ [x], ?_⟩
    show l = ((breakAt [c] l).1 ++ [x]) ++ rest
    conv_lhs => rw [← breakAt_eq_append [c] l, hbr]
    simp

/-- The remainder after scheme recognition is a suffix of the input. -/
lemma splitScheme_snd (u0 : List Char) : ∃ a, u0 = a ++ (splitScheme u0).2 := by
  cases hbr : (breakAt [':'] u0).2 with
  | nil => exact ⟨[], by simp [splitScheme, hbr]⟩
  | cons x after =>
    by_cases hcond : ((breakAt [':'] u0).1 ≠ [] ∧ ((breakAt [':'] u0).1.headD ' ').isAlpha ∧
        (breakAt [':'] u0).1.all schemeChar)
    · refine ⟨(breakAt [':'] u0).1 ++ [x], ?_⟩
      simp only [splitScheme, hbr]
      rw [if_pos hcond]
      conv_lhs => rw [← breakAt_eq_append [':'] u0, hbr]
      simp
    · refine ⟨[], ?_⟩
      simp only [splitScheme, hbr]
      rw [if_neg hcond]
      simp

/-- The outcome of splitNetloc, by the shape of its input. -/
lemma splitNetloc_eq (r : List Char) :
    splitNetloc r = ([], r) ∨
      ∃ r2, r = '/' :: '/' :: r2 ∧ splitNetloc r = breakAt ['/', '?', '#'] r2 := by
  rw [splitNetloc.eq_def]
  split
  · next r2 => exact Or.inr ⟨r2, rfl, rfl⟩
  · next => exact Or.inl rfl

/-- The input decomposes around the two components of splitNetloc. -/
lemma splitNetloc_decomp (r : List Char) :
    ∃ a, r = a ++ (splitNetloc r).1 ++ (splitNetloc r).2 := by
  rcases splitNetloc_eq r with h | ⟨r2, rfl, h⟩
  · exact ⟨[], by simp [h]⟩
  · refine ⟨['/', '/'], ?_⟩
    rw [h]
    simp [breakAt_eq_append]

/-- Field view of a successful urlsplit. -/
lemma pyUrlsplit_some {url : List Char} {u : UrlParts} (h : pyUrlsplit url = some u) :
    u.netloc = (splitNetloc (splitScheme (sanitizeUrl url)).2).1 ∧
    u.path = (splitOff '?' (splitOff '#' (splitNetloc (splitScheme (sanitizeUrl url)).2).2).1).1 ∧
    u.query =
      (splitOff '?' (splitOff '#' (splitNetloc (splitScheme (sanitizeUrl url)).2).2).1).2 := by
  unfold pyUrlsplit at h
  split_ifs at h with hbr
  simp only [Option.some.injEq] at h
  subst h
  exact ⟨rfl, rfl, rfl⟩

/-- The netloc, path and query of a successful urlsplit occur
contiguously inside the sanitised URL. -/
lemma pyUrlsplit_subseg {url : List Char} {u : UrlParts} (h : pyUrlsplit url = some u) :
    SubSeg u.netloc (sanitizeUrl url) ∧ SubSeg u.path (sanitizeUrl url) ∧
      SubSeg u.query (sanitizeUrl url) := by
  obtain ⟨hn, hp, hq⟩ := pyUrlsplit_some h
  obtain ⟨a1, ha1⟩ := splitScheme_snd (sanitizeUrl url)
  obtain ⟨a2, ha2⟩ := splitNetloc_decomp (splitScheme (sanitizeUrl url)).2
  have hnl2 : SubSeg (splitNetloc (splitScheme (sanitizeUrl url)).2).2 (sanitizeUrl url) :=
    ⟨a1 ++ (a2 ++ (splitNetloc (splitScheme (sanitizeUrl url)).2).1), [], by
      conv_lhs => rw [ha1, ha2]
      simp⟩
  obtain ⟨b3, hb3⟩ := splitOff_fst_front '#' (splitNetloc (splitScheme (sanitizeUrl url)).2).2
  have hfq1 : SubSeg (splitOff '#' (splitNetloc (splitScheme (sanitizeUrl url)).2).2).1
      (sanitizeUrl url) :=
    subSeg_trans ⟨[], b3, by simpa using hb3⟩ hnl2
  obtain ⟨b4, hb4⟩ :=
    splitOff_fst_front '?' (splitOff '#' (splitNetloc (splitScheme (sanitizeUrl url)).2).2).1
  obtain ⟨a5, ha5⟩ :=
    splitOff_snd_suffix '?' (splitOff '#' (splitNetloc (splitScheme (sanitizeUrl url)).2).2).1
  refine ⟨?_, ?_, ?_⟩
  · rw [hn]
    exact ⟨a1 ++ a2, (splitNetloc (splitScheme (sanitizeUrl url)).2).2, by
      conv_lhs => rw [ha1, ha2]
      simp⟩
  · rw [hp]
    exact subSeg_trans ⟨[], b4, by simpa using hb4⟩ hfq1
  · rw [hq]
    exact subSeg_trans ⟨a5, [], by simpa using ha5⟩ hfq1

/-! ## Character-class facts for the identifier alphabet -/

/-- Numeric range of an identifier character: hyphen, underscore, digit,
upper-case letter or lower-case letter. -/
lemma tokenChar_toNat {c : Char} (h : tokenChar c = true) :
    c.toNat = 45 ∨ c.toNat = 95 ∨ (48 ≤ c.toNat ∧ c.toNat ≤ 57) ∨
      (65 ≤ c.toNat ∧ c.toNat ≤ 90) ∨ (97 ≤ c.toNat ∧ c.toNat ≤ 122) := by
  simp [tokenChar, Char.isDigit, Char.isAlpha, Char.isUpper, Char.isLower] at h
  rcases h with ((h | h | h) | rfl) | rfl
  · exact Or.inr (Or.inr (Or.inl ⟨h.1, h.2⟩))
  · exact Or.inr (Or.inr (Or.inr (Or.inl ⟨h.1, h.2⟩)))
  · exact Or.inr (Or.inr (Or.inr (Or.inr ⟨h.1, h.2⟩)))
  · exact Or.inr (Or.inl (by decide))
  · exact Or.inl (by decide)

/-- An identifier character differs from every character outside the
identifier ranges. -/
lemma tokenChar_ne {c : Char} (h : tokenChar c = true) (x : Char)
    (hx : x.toNat ≠ 45 ∧ x.toNat ≠ 95 ∧ (x.toNat < 48 ∨ 57 < x.toNat) ∧
      (x.toNat < 65 ∨ 90 < x.toNat) ∧ (x.toNat < 97 ∨ 122 < x.toNat)) : c ≠ x := by
  intro he
  subst he
  obtain ⟨h1, h2, h3, h4, h5⟩ := hx
  rcases tokenChar_toNat h with h0 | h0 | ⟨ha, hb⟩ | ⟨ha, hb⟩ | ⟨ha, hb⟩ <;> omega

/-- Identifier characters belong to no given set of non-identifier
characters. -/
lemma token_notin {T : List Char} (hT : ∀ c ∈ T, tokenChar c = true) (S : List Char)
    (hS : ∀ x ∈ S, x.toNat ≠ 45 ∧ x.toNat ≠ 95 ∧ (x.toNat < 48 ∨ 57 < x.toNat) ∧
      (x.toNat < 65 ∨ 90 < x.toNat) ∧ (x.toNat < 97 ∨ 122 < x.toNat)) :
    ∀ c ∈ T, c ∉ S := by
  intro c hc hmem
  exact tokenChar_ne (hT c hc) c (hS c hmem) rfl

/-- Identifier characters survive the tab/CR/LF filter. -/
lemma tokenChar_kept {c : Char} (h : tokenChar c = true) : unsafeUrlChar c = false := by
  have h1 := tokenChar_ne h '\t' (by decide)
  have h2 := tokenChar_ne h '\r' (by decide)
  have h3 := tokenChar_ne h '\n' (by decide)
  simp [unsafeUrlChar, h1, h2, h3]

/-- dropWhile is the identity when no element satisfies the predicate. -/
lemma dropWhile_eq_self_of_neg {p : Char → Bool} {l : List Char}
    (h : ∀ c ∈ l, p c = false) : l.dropWhile p = l := by
  cases l with
  | nil => rfl
  | cons c cs => simp [List.dropWhile_cons, h c (List.mem_cons_self ..)]

/-- Sanitisation is the identity on a clean block followed by identifier
characters. -/
lemma sanitizeUrl_append {P T : List Char} (hne : P ≠ [])
    (hhead : c0OrSpace (P.headD ' ') = false)
    (hPf : P.filter (fun c => !unsafeUrlChar c) = P)
    (hT : ∀ c ∈ T, tokenChar c = true) :
    sanitizeUrl (P ++ T) = P ++ T := by
  unfold sanitizeUrl
  have hdw : (P ++ T).dropWhile c0OrSpace = P ++ T := by
    cases P with
    | nil => exact absurd rfl hne
    | cons p ps =>
      simp only [List.headD_cons] at hhead
      simp [List.dropWhile_cons, hhead]
  rw [hdw, List.filter_append, hPf]
  have hTf : T.filter (fun c => !unsafeUrlChar c) = T :=
    List.filter_eq_self.mpr fun c hc => by simp [tokenChar_kept (hT c hc)]
  rw [hTf]

/-- Scheme split of an https URL. -/
lemma splitScheme_https (R : List Char) :
    splitScheme ("https".toList ++ ':' :: R) = ("https".toList, R) := by
  have hbr : breakAt [':'] ("https".toList ++ ':' :: R) = ("https".toList, ':' :: R) := by
    rw [breakAt_append_noStop _ _ (by decide)]
    rfl
  unfold splitScheme
  rw [hbr]
  simp only []
  rw [if_pos (by refine ⟨by decide, by decide, by decide⟩)]
  rw [show "https".toList.map Char.toLower = "https".toList from by decide]

/-- Netloc split of an authority followed by a slash. -/
lemma splitNetloc_slash (H R : List Char) (hH : ∀ c ∈ H, c ∉ (['/', '?', '#'] : List Char)) :
    splitNetloc ('/' :: '/' :: (H ++ '/' :: R)) = (H, '/' :: R) := by
  have h0 : splitNetloc ('/' :: '/' :: (H ++ '/' :: R)) =
      breakAt ['/', '?', '#'] (H ++ '/' :: R) := rfl
  rw [h0, breakAt_append_noStop _ _ hH]
  simp [breakAt]

/-- splitOff is trivial on separator-free input. -/
lemma splitOff_noStop {c : Char} {l : List Char} (h : ∀ d ∈ l, d ∉ ([c] : List Char)) :
    splitOff c l = (l, []) := by
  simp [splitOff, breakAt_noStop h]

/-- urlsplit on an https URL with an authority and a slash-led rest:
the scheme and netloc are recognised and the rest is split at the
fragment and query marks. -/
lemma pyUrlsplit_https_slash (H R : List Char)
    (hsan : sanitizeUrl ("https".toList ++ ':' :: '/' :: '/' :: (H ++ '/' :: R)) =
      "https".toList ++ ':' :: '/' :: '/' :: (H ++ '/' :: R))
    (hH : ∀ c ∈ H, c ∉ (['/', '?', '#'] : List Char))
    (hbrk : ¬ (('[' ∈ H ∧ ']' ∉ H) ∨ (']' ∈ H ∧ '[' ∉ H))) :
    pyUrlsplit ("https".toList ++ ':' :: '/' :: '/' :: (H ++ '/' :: R)) =
      some ⟨"https".toList, H, (splitOff '?' (splitOff '#' ('/' :: R)).1).1,
            (splitOff '?' (splitOff '#' ('/' :: R)).1).2, (splitOff '#' ('/' :: R)).2⟩ := by
  unfold pyUrlsplit
  simp only [hsan, splitScheme_https, splitNetloc_slash H R hH]
  rw [if_neg hbrk]

/-- unquote_plus leaves an identifier token unchanged. -/
lemma pyUnquotePlus_token {T : List Char} (hT : ∀ c ∈ T, tokenChar c = true) :
    pyUnquotePlus T = T :=
  pyUnquotePlus_id fun c hc =>
    ⟨tokenChar_ne (hT c hc) '%' (by decide), tokenChar_ne (hT c hc) '+' (by decide)⟩

/-- urlsplit of a watch URL: path /watch, query v= followed by the
token. -/
lemma pyUrlsplit_watch (T : List Char) (hT : ∀ c ∈ T, tokenChar c = true) :
    pyUrlsplit ("https://www.youtube.com/watch?v=".toList ++ T) =
      some ⟨"https".toList, "www.youtube.com".toList, "/watch".toList,
            "v=".toList ++ T, []⟩ := by
  have hsan : sanitizeUrl ("https".toList ++ ':' :: '/' :: '/' ::
      ("www.youtube.com".toList ++ '/' :: ("watch?v=".toList ++ T))) =
      "https".toList ++ ':' :: '/' :: '/' ::
      ("www.youtube.com".toList ++ '/' :: ("watch?v=".toList ++ T)) :=
    @sanitizeUrl_append "https://www.youtube.com/watch?v=".toList T
      (by decide) (by decide) (by decide) hT
  have hhash : splitOff '#' ('/' :: ("watch?v=".toList ++ T)) =
      ('/' :: ("watch?v=".toList ++ T), []) :=
    splitOff_noStop (List.forall_mem_cons.mpr ⟨by decide,
      List.forall_mem_append.mpr ⟨by decide, token_notin hT _ (by decide)⟩⟩)
  have hb0 := @breakAt_append_noStop ['?'] "/watch".toList ('?' :: ("v=".toList ++ T))
    (by decide)
  rw [show breakAt ['?'] ('?' :: ("v=".toList ++ T)) = ([], '?' :: ("v=".toList ++ T))
    from rfl] at hb0
  simp only [List.append_nil] at hb0
  have hb : breakAt ['?'] ('/' :: 'w' :: 'a' :: 't' :: 'c' :: 'h' :: '?' :: 'v' :: '=' :: T) =
      (['/', 'w', 'a', 't', 'c', 'h'], '?' :: 'v' :: '=' :: T) := hb0
  have hqm : splitOff '?' ('/' :: ("watch?v=".toList ++ T)) =
      ("/watch".toList, "v=".toList ++ T) := by
    simp [splitOff, hb]
  rw [show ("https://www.youtube.com/watch?v=".toList ++ T : List Char) =
    "https".toList ++ ':' :: '/' :: '/' ::
      ("www.youtube.com".toList ++ '/' :: ("watch?v=".toList ++ T)) from rfl]
  rw [pyUrlsplit_https_slash "www.youtube.com".toList ("watch?v=".toList ++ T) hsan
    (by decide) (by decide)]
  simp only [hhash, hqm]

/-- urlsplit of a youtu.be short URL: host youtu.be, path slash plus the
token, empty query. -/
lemma pyUrlsplit_youtube_short (T : List Char) (hT : ∀ c ∈ T, tokenChar c = true) :
    pyUrlsplit ("https://youtu.be/".toList ++ T) =
      some ⟨"https".toList, "youtu.be".toList, '/' :: T, [], []⟩ := by
  have hsan : sanitizeUrl ("https".toList ++ ':' :: '/' :: '/' ::
      ("youtu.be".toList ++ '/' :: T)) =
      "https".toList ++ ':' :: '/' :: '/' ::
      ("youtu.be".toList ++ '/' :: T) :=
    @sanitizeUrl_append "https://youtu.be/".toList T
      (by decide) (by decide) (by decide) hT
  have hhash : splitOff '#' ('/' :: T) = ('/' :: T, []) :=
    splitOff_noStop (List.forall_mem_cons.mpr ⟨by decide, token_notin hT _ (by decide)⟩)
  have hqm : splitOff '?' ('/' :: T) = ('/' :: T, []) :=
    splitOff_noStop (List.forall_mem_cons.mpr ⟨by decide, token_notin hT _ (by decide)⟩)
  rw [show ("https://youtu.be/".toList ++ T : List Char) =
    "https".toList ++ ':' :: '/' :: '/' :: ("youtu.be".toList ++ '/' :: T) from rfl]
  rw [pyUrlsplit_https_slash "youtu.be".toList T hsan
    (by decide) (by decide)]
  simp only [hhash, hqm]

/-- urlsplit of an embed URL: the path keeps the /embed/ segment and the
token, the query is empty. -/
lemma pyUrlsplit_embed (T : List Char) (hT : ∀ c ∈ T, tokenChar c = true) :
    pyUrlsplit ("https://www.youtube.com/embed/".toList ++ T) =
      some ⟨"https".toList, "www.youtube.com".toList, '/' :: ("embed/".toList ++ T),
            [], []⟩ := by
  have hsan : sanitizeUrl ("https".toList ++ ':' :: '/' :: '/' ::
      ("www.youtube.com".toList ++ '/' :: ("embed/".toList ++ T))) =
      "https".toList ++ ':' :: '/' :: '/' ::
      ("www.youtube.com".toList ++ '/' :: ("embed/".toList ++ T)) :=
    @sanitizeUrl_append "https://www.youtube.com/embed/".toList T
      (by decide) (by decide) (by decide) hT
  have hhash : splitOff '#' ('/' :: ("embed/".toList ++ T)) =
      ('/' :: ("embed/".toList ++ T), []) :=
    splitOff_noStop (List.forall_mem_cons.mpr ⟨by decide,
      List.forall_mem_append.mpr ⟨by decide, token_notin hT _ (by decide)⟩⟩)
  have hqm : splitOff '?' ('/' :: ("embed/".toList ++ T)) =
      ('/' :: ("embed/".toList ++ T), []) :=
    splitOff_noStop (List.forall_mem_cons.mpr ⟨by decide,
      List.forall_mem_append.mpr ⟨by decide, token_notin hT _ (by decide)⟩⟩)
  rw [show ("https://www.youtube.com/embed/".toList ++ T : List Char) =
    "https".toList ++ ':' :: '/' :: '/' ::
      ("www.youtube.com".toList ++ '/' :: ("embed/".toList ++ T)) from rfl]
  rw [pyUrlsplit_https_slash "www.youtube.com".toList ("embed/".toList ++ T) hsan
    (by decide) (by decide)]
  simp only [hhash, hqm]

/-- urlsplit of a /v/ URL. -/
lemma pyUrlsplit_vpath (T : List Char) (hT : ∀ c ∈ T, tokenChar c = true) :
    pyUrlsplit ("https://www.youtube.com/v/".toList ++ T) =
      some ⟨"https".toList, "www.youtube.com".toList, '/' :: ("v/".toList ++ T),
            [], []⟩ := by
  have hsan : sanitizeUrl ("https".toList ++ ':' :: '/' :: '/' ::
      ("www.youtube.com".toList ++ '/' :: ("v/".toList ++ T))) =
      "https".toList ++ ':' :: '/' :: '/' ::
      ("www.youtube.com".toList ++ '/' :: ("v/".toList ++ T)) :=
    @sanitizeUrl_append "https://www.youtube.com/v/".toList T
      (by decide) (by decide) (by decide) hT
  have hhash : splitOff '#' ('/' :: ("v/".toList ++ T)) =
      ('/' :: ("v/".toList ++ T), []) :=
    splitOff_noStop (List.forall_mem_cons.mpr ⟨by decide,
      List.forall_mem_append.mpr ⟨by decide, token_notin hT _ (by decide)⟩⟩)
  have hqm : splitOff '?' ('/' :: ("v/".toList ++ T)) =
      ('/' :: ("v/".toList ++ T), []) :=
    splitOff_noStop (List.forall_mem_cons.mpr ⟨by decide,
      List.forall_mem_append.mpr ⟨by decide, token_notin hT _ (by decide)⟩⟩)
  rw [show ("https://www.youtube.com/v/".toList ++ T : List Char) =
    "https".toList ++ ':' :: '/' :: '/' ::
      ("www.youtube.com".toList ++ '/' :: ("v/".toList ++ T)) from rfl]
  rw [pyUrlsplit_https_slash "www.youtube.com".toList ("v/".toList ++ T) hsan
    (by decide) (by decide)]
  simp only [hhash, hqm]

/-- urlsplit of a /shorts/ URL. -/
lemma pyUrlsplit_shorts (T : List Char) (hT : ∀ c ∈ T, tokenChar c = true) :
    pyUrlsplit ("https://www.youtube.com/shorts/".toList ++ T) =
      some ⟨"https".toList, "www.youtube.com".toList, '/' :: ("shorts/".toList ++ T),
            [], []⟩ := by
  have hsan : sanitizeUrl ("https".toList ++ ':' :: '/' :: '/' ::
      ("www.youtube.com".toList ++ '/' :: ("shorts/".toList ++ T))) =
      "https".toList ++ ':' :: '/' :: '/' ::
      ("www.youtube.com".toList ++ '/' :: ("shorts/".toList ++ T)) :=
    @sanitizeUrl_append "https://www.youtube.com/shorts/".toList T
      (by decide) (by decide) (by decide) hT
  have hhash : splitOff '#' ('/' :: ("shorts/".toList ++ T)) =
      ('/' :: ("shorts/".toList ++ T), []) :=
    splitOff_noStop (List.forall_mem_cons.mpr ⟨by decide,
      List.forall_mem_append.mpr ⟨by decide, token_notin hT _ (by decide)⟩⟩)
  have hqm : splitOff '?' ('/' :: ("shorts/".toList ++ T)) =
      ('/' :: ("shorts/".toList ++ T), []) :=
    splitOff_noStop (List.forall_mem_cons.mpr ⟨by decide,
      List.forall_mem_append.mpr ⟨by decide, token_notin hT _ (by decide)⟩⟩)
  rw [show ("https://www.youtube.com/shorts/".toList ++ T : List Char) =
    "https".toList ++ ':' :: '/' :: '/' ::
      ("www.youtube.com".toList ++ '/' :: ("shorts/".toList ++ T)) from rfl]
  rw [pyUrlsplit_https_slash "www.youtube.com".toList ("shorts/".toList ++ T) hsan
    (by decide) (by decide)]
  simp only [hhash, hqm]

/-- parse_qsl of a v= query holding one identifier token. -/
lemma parse_qsl_v_token (T : List Char) (hT : ∀ c ∈ T, tokenChar c = true)
    (hne : T ≠ []) : parse_qsl ("v=".toList ++ T) = [(['v'], T)] := by
  have hsp0 : ∀ c ∈ ("v=".toList ++ T : List Char), (c == '&') = false :=
    List.forall_mem_append.mpr ⟨by decide,
      fun c hc => beq_eq_false_iff_ne.mpr (tokenChar_ne (hT c hc) '&' (by decide))⟩
  have hsp : pySplitOn '&' ('v' :: '=' :: T) = ['v' :: '=' :: T] := pySplitOn_noSep hsp0
  have hb : breakAt ['='] ('v' :: '=' :: T) = (['v'], '=' :: T) := rfl
  have hv : pyUnquotePlus ['v'] = ['v'] := rfl
  simp [parse_qsl, hsp, hb, hv, pyUnquotePlus_token hT, hne]

/-- parse_qs finds the single v entry. -/
lemma qsFirst_single_v (T : List Char) : qsFirst ['v'] [(['v'], T)] = some T := rfl

/-- Stripping slashes from a slash followed by an identifier token
leaves the token. -/
lemma stripSlashes_slash_token {T : List Char} (hT : ∀ c ∈ T, tokenChar c = true) :
    stripSlashes ('/' :: T) = T := by
  have hs : ∀ c ∈ T, (c == '/') = false := fun c hc =>
    beq_eq_false_iff_ne.mpr (tokenChar_ne (hT c hc) '/' (by decide))
  unfold stripSlashes
  rw [List.dropWhile_cons, if_pos (by decide)]
  rw [dropWhile_eq_self_of_neg hs,
    dropWhile_eq_self_of_neg (fun c hc => hs c (List.mem_reverse.mp hc)),
    List.reverse_reverse]

/-- The path scan on /embed/ followed by a valid token returns the
token. -/
lemma scanShapes_embed (T : List Char) (hlen : T.length = 11)
    (hall : T.all tokenChar = true) : scanShapes ("/embed/".toList ++ T) = some T := by
  have h1 : tryShape "/embed/".toList ('/' :: ("embed/".toList ++ T)) = some T :=
    tryShape_append_self "/embed/".toList T hlen hall
  rw [show ("/embed/".toList ++ T : List Char) = '/' :: ("embed/".toList ++ T) from rfl]
  unfold scanShapes
  simp only [h1]

/-- The path scan on /v/ followed by a valid token returns the token. -/
lemma scanShapes_vpath (T : List Char) (hlen : T.length = 11)
    (hall : T.all tokenChar = true) : scanShapes ("/v/".toList ++ T) = some T := by
  have h0 : tryShape "/embed/".toList ('/' :: ("v/".toList ++ T)) = none := rfl
  have h1 : tryShape "/v/".toList ('/' :: ("v/".toList ++ T)) = some T :=
    tryShape_append_self "/v/".toList T hlen hall
  rw [show ("/v/".toList ++ T : List Char) = '/' :: ("v/".toList ++ T) from rfl]
  unfold scanShapes
  simp only [h0, h1]

/-- The path scan on /shorts/ followed by a valid token returns the
token. -/
lemma scanShapes_shorts (T : List Char) (hlen : T.length = 11)
    (hall : T.all tokenChar = true) : scanShapes ("/shorts/".toList ++ T) = some T := by
  have h0 : tryShape "/embed/".toList ('/' :: ("shorts/".toList ++ T)) = none := rfl
  have h0v : tryShape "/v/".toList ('/' :: ("shorts/".toList ++ T)) = none := rfl
  have h1 : tryShape "/shorts/".toList ('/' :: ("shorts/".toList ++ T)) = some T :=
    tryShape_append_self "/shorts/".toList T hlen hall
  rw [show ("/shorts/".toList ++ T : List Char) = '/' :: ("shorts/".toList ++ T) from rfl]
  unfold scanShapes
  simp only [h0, h0v, h1]

/-- parse_qs of the empty query holds no v entry. -/
lemma qsFirst_empty_query : qsFirst ['v'] (parse_qsl ([] : List Char)) = none := rfl

/-- Unfolding of extract_video_id under a successful urlsplit. -/
lemma extract_of_parts {url : String} {u : UrlParts} (hp : pyUrlsplit url.data = some u) :
    extract_video_id url =
      match qsFirst ['v'] (parse_qsl u.query) with
      | some v0 => some ⟨v0.take 11⟩
      | none =>
        if containsSub "youtu.be".toList (u.netloc.map Char.toLower) then
          some ⟨((pySplitOn '/' (stripSlashes u.path)).headD []).take 11⟩
        else (scanShapes u.path).map (⟨·⟩) := by
  simp [extract_video_id, hp]

/-- extract_video_id on the watch?v= shape. -/
lemma extract_watch (t : String) (hlen : t.data.length = 11)
    (hT : ∀ c ∈ t.data, tokenChar c = true) :
    extract_video_id ("https://www.youtube.com/watch?v=" ++ t) = some t := by
  have hp : pyUrlsplit ("https://www.youtube.com/watch?v=" ++ t).data =
      some ⟨"https".toList, "www.youtube.com".toList, "/watch".toList,
            "v=".toList ++ t.data, []⟩ :=
    pyUrlsplit_watch t.data hT
  have hq : qsFirst ['v'] (parse_qsl ("v=".toList ++ t.data)) = some t.data := by
    rw [parse_qsl_v_token t.data hT (by intro h; rw [h] at hlen; simp at hlen)]
    exact qsFirst_single_v t.data
  have htake : t.data.take 11 = t.data := List.take_of_length_le (le_of_eq hlen)
  have hgoal : extract_video_id ("https://www.youtube.com/watch?v=" ++ t) =
      some ⟨t.data⟩ := by
    rw [extract_of_parts hp]
    simp only [hq, htake]
  exact hgoal

/-- extract_video_id on the youtu.be short-URL shape. -/
lemma extract_short (t : String) (hlen : t.data.length = 11)
    (hT : ∀ c ∈ t.data, tokenChar c = true) :
    extract_video_id ("https://youtu.be/" ++ t) = some t := by
  have hp : pyUrlsplit ("https://youtu.be/" ++ t).data =
      some ⟨"https".toList, "youtu.be".toList, '/' :: t.data, [], []⟩ :=
    pyUrlsplit_youtube_short t.data hT
  have hcs : containsSub "youtu.be".toList ("youtu.be".toList.map Char.toLower) = true := by
    decide
  have hstrip : stripSlashes ('/' :: t.data) = t.data := stripSlashes_slash_token hT
  have hsplit : pySplitOn '/' t.data = [t.data] := pySplitOn_noSep fun c hc =>
    beq_eq_false_iff_ne.mpr (tokenChar_ne (hT c hc) '/' (by decide))
  have htake : t.data.take 11 = t.data := List.take_of_length_le (le_of_eq hlen)
  have hgoal : extract_video_id ("https://youtu.be/" ++ t) = some ⟨t.data⟩ := by
    rw [extract_of_parts hp]
    simp only [qsFirst_empty_query, hcs, if_true, hstrip, hsplit, List.headD_cons, htake]
  exact hgoal

/-- extract_video_id on the /embed/ shape. -/
lemma extract_embed (t : String) (hlen : t.data.length = 11)
    (hT : ∀ c ∈ t.data, tokenChar c = true) :
    extract_video_id ("https://www.youtube.com/embed/" ++ t) = some t := by
  have hp : pyUrlsplit ("https://www.youtube.com/embed/" ++ t).data =
      some ⟨"https".toList, "www.youtube.com".toList, '/' :: ("embed/".toList ++ t.data),
            [], []⟩ :=
    pyUrlsplit_embed t.data hT
  have hcs : containsSub "youtu.be".toList ("www.youtube.com".toList.map Char.toLower) =
      false := by decide
  have hsc : scanShapes ('/' :: ("embed/".toList ++ t.data)) = some t.data :=
    scanShapes_embed t.data hlen (List.all_eq_true.mpr hT)
  have hgoal : extract_video_id ("https://www.youtube.com/embed/" ++ t) =
      some ⟨t.data⟩ := by
    rw [extract_of_parts hp]
    simp only [qsFirst_empty_query, hcs, Bool.false_eq_true, if_false, hsc, Option.map_some']
  exact hgoal

/-- extract_video_id on the /v/ shape. -/
lemma extract_vpath (t : String) (hlen : t.data.length = 11)
    (hT : ∀ c ∈ t.data, tokenChar c = true) :
    extract_video_id ("https://www.youtube.com/v/" ++ t) = some t := by
  have hp : pyUrlsplit ("https://www.youtube.com/v/" ++ t).data =
      some ⟨"https".toList, "www.youtube.com".toList, '/' :: ("v/".toList ++ t.data),
            [], []⟩ :=
    pyUrlsplit_vpath t.data hT
  have hcs : containsSub "youtu.be".toList ("www.youtube.com".toList.map Char.toLower) =
      false := by decide
  have hsc : scanShapes ('/' :: ("v/".toList ++ t.data)) = some t.data :=
    scanShapes_vpath t.data hlen (List.all_eq_true.mpr hT)
  have hgoal : extract_video_id ("https://www.youtube.com/v/" ++ t) = some ⟨t.data⟩ := by
    rw [extract_of_parts hp]
    simp only [qsFirst_empty_query, hcs, Bool.false_eq_true, if_false, hsc, Option.map_some']
  exact hgoal

/-- extract_video_id on the /shorts/ shape. -/
lemma extract_shorts (t : String) (hlen : t.data.length = 11)
    (hT : ∀ c ∈ t.data, tokenChar c = true) :
    extract_video_id ("https://www.youtube.com/shorts/" ++ t) = some t := by
  have hp : pyUrlsplit ("https://www.youtube.com/shorts/" ++ t).data =
      some ⟨"https".toList, "www.youtube.com".toList, '/' :: ("shorts/".toList ++ t.data),
            [], []⟩ :=
    pyUrlsplit_shorts t.data hT
  have hcs : containsSub "youtu.be".toList ("www.youtube.com".toList.map Char.toLower) =
      false := by decide
  have hsc : scanShapes ('/' :: ("shorts/".toList ++ t.data)) = some t.data :=
    scanShapes_shorts t.data hlen (List.all_eq_true.mpr hT)
  have hgoal : extract_video_id ("https://www.youtube.com/shorts/" ++ t) =
      some ⟨t.data⟩ := by
    rw [extract_of_parts hp]
    simp only [qsFirst_empty_query, hcs, Bool.false_eq_true, if_false, hsc, Option.map_some']
  exact hgoal

/-- If parse_qs finds a v entry in a percent-free query, the query
contains the two characters v= adjacently. -/
lemma qsFirst_v_some_imp {query v0 : List Char} (hq : ∀ c ∈ query, c ≠ '%')
    (h : qsFirst ['v'] (parse_qsl query) = some v0) :
    containsSub ['v', '='] query = true := by
  unfold qsFirst at h
  obtain ⟨p, hfind, hsnd⟩ := Option.map_eq_some'.mp h
  have hbeq : (p.1 == ['v']) = true := by
    have hb := List.find?_some hfind
    simpa using hb
  have hmemp : p ∈ parse_qsl query := List.mem_of_find?_eq_some hfind
  unfold parse_qsl at hmemp
  obtain ⟨nv, hnv, hf⟩ := List.mem_filterMap.mp hmemp
  have hsub : SubSeg nv query := pySplitOn_mem_subseg '&' query nv hnv
  by_cases hne : nv = []
  · rw [if_pos hne] at hf
    exact absurd hf (by simp)
  rw [if_neg hne] at hf
  cases hbr : (breakAt ['='] nv).2 with
  | nil =>
    simp only [hbr] at hf
    exact absurd hf (by simp)
  | cons e value =>
    simp only [hbr] at hf
    by_cases hve : value = []
    · rw [if_pos hve] at hf
      exact absurd hf (by simp)
    rw [if_neg hve] at hf
    simp only [Option.some.injEq] at hf
    subst hf
    have hname : pyUnquotePlus (breakAt ['='] nv).1 = ['v'] := by simpa using hbeq
    have hnper : ∀ c ∈ (breakAt ['='] nv).1, c ≠ '%' := by
      intro c hc
      have hcnv : c ∈ nv := by
        rw [← breakAt_eq_append ['='] nv]
        exact List.mem_append.mpr (Or.inl hc)
      exact hq c (subSeg_mem hsub hcnv)
    have hv : (breakAt ['='] nv).1 = ['v'] := pyUnquotePlus_eq_single_v hnper hname
    have he : e = '=' := by
      have := breakAt_snd_mem hbr
      simpa using this
    have hnveq : nv = 'v' :: '=' :: value := by
      conv_lhs => rw [← breakAt_eq_append ['='] nv, hv, hbr, he]
      rfl
    obtain ⟨a, b, hab⟩ := hsub
    rw [containsSub_iff]
    refine ⟨a, value ++ b, ?_⟩
    rw [hab, hnveq]
    simp

/-- extract_video_id returns absence when the sanitised URL has no v=
pair, no percent escape, no youtu.be host fragment and no shape
occurrence. -/
lemma extract_video_id_none (s : String)
    (h1 : containsSub ['v', '='] (sanitizeUrl s.data) = false)
    (h2 : ∀ c ∈ sanitizeUrl s.data, c ≠ '%')
    (h3 : containsSub "youtu.be".toList ((sanitizeUrl s.data).map Char.toLower) = false)
    (h4 : hasShapeOcc (sanitizeUrl s.data) = false) :
    extract_video_id s = none := by
  cases hp : pyUrlsplit s.data with
  | none => simp [extract_video_id, hp]
  | some u =>
    obtain ⟨hsn, hsp, hsq⟩ := pyUrlsplit_subseg hp
    rw [extract_of_parts hp]
    cases hv : qsFirst ['v'] (parse_qsl u.query) with
    | some v0 =>
      have hqper : ∀ c ∈ u.query, c ≠ '%' := fun c hc => h2 c (subSeg_mem hsq hc)
      have := containsSub_mono hsq (qsFirst_v_some_imp hqper hv)
      rw [this] at h1
      exact absurd h1 (by simp)
    | none =>
      have hhost : containsSub "youtu.be".toList (u.netloc.map Char.toLower) = false := by
        cases hcc : containsSub "youtu.be".toList (u.netloc.map Char.toLower) with
        | false => rfl
        | true =>
          have := containsSub_mono (subSeg_map Char.toLower hsn) hcc
          rw [this] at h3
          exact absurd h3 (by simp)
      have hscan : scanShapes u.path = none := by
        cases hsc : scanShapes u.path with
        | none => rfl
        | some tok =>
          obtain ⟨pat, hpat, hocc, hlen, hall⟩ := scanShapes_subseg u.path tok hsc
          have := hasShapeOcc_of_subseg hpat (subSeg_trans hocc hsp) hlen hall
          rw [this] at h4
          exact absurd h4 (by simp)
      simp only [hv, hhost, Bool.false_eq_true, if_false, hscan, Option.map_none']

/-- The unqualified negative half of claim C5 fails: this URL contains
none of the five shapes — its query token has five characters, not
eleven, so no pattern-plus-eleven-identifier-characters occurrence
exists — yet extraction returns a value, because the v= branch truncates
with take(11) instead of requiring eleven characters. -/
theorem extract_video_id_shapes_counterexample :
    extract_video_id "https://y.com/?v=short" = some "short" ∧
    containsAnyClaimShape "https://y.com/?v=short" = false := by
  decide

/-- Claim C5 (amended): for every eleven-character token over the class
[0-9A-Za-z_-], extract_video_id returns exactly the token on each of the
five URL shapes watch?v=, youtu.be/, /embed/, /v/ and /shorts/; and
every string whose sanitised text contains no v= pair, no percent sign,
no youtu.be fragment case-insensitively and no path-shape occurrence
yields none.  The claim's unqualified negative direction is refuted by
the separate counterexample. -/
theorem extract_video_id_shapes :
    (∀ t : String, t.data.length = 11 → (∀ c ∈ t.data, tokenChar c = true) →
      extract_video_id ("https://www.youtube.com/watch?v=" ++ t) = some t ∧
      extract_video_id ("https://youtu.be/" ++ t) = some t ∧
      extract_video_id ("https://www.youtube.com/embed/" ++ t) = some t ∧
      extract_video_id ("https://www.youtube.com/v/" ++ t) = some t ∧
      extract_video_id ("https://www.youtube.com/shorts/" ++ t) = some t) ∧
    (∀ s : String, containsSub ['v', '='] (sanitizeUrl s.data) = false →
      (∀ c ∈ sanitizeUrl s.data, c ≠ '%') →
      containsSub "youtu.be".toList ((sanitizeUrl s.data).map Char.toLower) = false →
      hasShapeOcc (sanitizeUrl s.data) = false →
      extract_video_id s = none) := by
  refine ⟨fun t hlen hT => ⟨extract_watch t hlen hT, extract_short t hlen hT,
    extract_embed t hlen hT, extract_vpath t hlen hT, extract_shorts t hlen hT⟩,
    fun s h1 h2 h3 h4 => extract_video_id_none s h1 h2 h3 h4⟩

/-- Concrete instantiation of the C5 theorem: the watch shape at the
token dQw4w9WgXcQ, and the negative direction at an unrelated string. -/
theorem extract_video_id_shapes_witness :
    extract_video_id ("https://www.youtube.com/watch?v=" ++ "dQw4w9WgXcQ") =
      some "dQw4w9WgXcQ" ∧ extract_video_id "notaurl" = none := by
  refine ⟨(extract_video_id_shapes.1 "dQw4w9WgXcQ" (by decide) (by decide)).1,
    extract_video_id_shapes.2 "notaurl" (by decide) (by decide) (by decide) (by decide)⟩

end VidCap
